import Mathlib

/-!
Shallow embedding of the Loan_Approval_prediction pipeline
(`src/preprocess.py`, `DataHandling/src/train.py`, `DataHandling/src/evaluate.py`).

Pandas cells are modelled by `Val`: a cell is missing (`na`, pandas NaN),
an infinity (`inf`), a finite number (`num`, exact rationals standing for
the float values the code manipulates), or a string (`str`, the object
dtype of raw categorical columns).  A DataFrame is modelled columnarly as
an ordered association list from column name to cell list (`Frame`), and
row-wise as a list of ordered field lists (`Row`) where the row-grain
operations (groupby, merge, per-row feature engineering) live.
-/

namespace Loan

/-- A pandas cell: missing, signed infinity, finite numeric, or string. -/
inductive Val where
  | na : Val
  | inf (pos : Bool) : Val
  | num (q : ℚ) : Val
  | str (s : String) : Val
deriving DecidableEq, Repr

namespace Val

/-- Is the cell missing (pandas `isnull`)?  Infinities are not null. -/
def isNa : Val → Bool
  | .na => true
  | _ => false

/-- Is the cell an infinity? -/
def isInf : Val → Bool
  | .inf _ => true
  | _ => false

/-- Is the cell a finite number? -/
def isNum : Val → Bool
  | .num _ => true
  | _ => false

/-- Is the cell a string (object dtype)? -/
def isStr : Val → Bool
  | .str _ => true
  | _ => false

/-- Python `str()` of a cell, as used by `combined.astype(str)`:
`str(np.nan) = "nan"`, infinities print as `inf`/`-inf`, numbers print
their value, strings are unchanged. -/
def toStr : Val → String
  | .na => "nan"
  | .inf true => "inf"
  | .inf false => "-inf"
  | .num q => toString q
  | .str s => s

/-- IEEE-style addition on cells: NaN propagates, `inf + (-inf) = NaN`. -/
def add : Val → Val → Val
  | .num a, .num b => .num (a + b)
  | .inf a, .inf b => if a = b then .inf a else .na
  | .inf a, .num _ => .inf a
  | .num _, .inf b => .inf b
  | _, _ => .na

/-- IEEE-style subtraction on cells. -/
def sub : Val → Val → Val
  | .num a, .num b => .num (a - b)
  | .inf a, .inf b => if a = b then .na else .inf a
  | .inf a, .num _ => .inf a
  | .num _, .inf b => .inf !b
  | _, _ => .na

/-- IEEE-style division on cells: `x / 0` is a signed infinity for
`x ≠ 0` and NaN for `x = 0` (numpy float semantics). -/
def div : Val → Val → Val
  | .num a, .num b =>
      if b = 0 then
        (if a = 0 then .na else .inf (decide (0 < a)))
      else .num (a / b)
  | .inf a, .num b => if 0 ≤ b then .inf a else .inf !a
  | .num _, .inf _ => .num 0
  | _, _ => .na

/-- Comparison used when sorting / taking min, max, median of a numeric
column: `-inf` below every finite number, `inf` above.  Strings and NaN
never reach these comparisons on the paths the theorems cover. -/
def leB : Val → Val → Bool
  | .num a, .num b => decide (a ≤ b)
  | .inf false, _ => true
  | _, .inf true => true
  | .inf true, _ => false
  | _, .inf false => false
  | .str a, .str b => decide (a ≤ b)
  | _, _ => true

/-- Mean of two cells, as numpy computes the midpoint of the two central
values of an even-length sorted sample: `(a + b) / 2`. -/
def mean2 (a b : Val) : Val := (a.add b).div (.num 2)

end Val

/-- Insert into a `le`-sorted list (used to model the sorts the library
functions perform; stability is irrelevant for every use below). -/
def insertLe (le : Val → Val → Bool) (a : Val) : List Val → List Val
  | [] => [a]
  | b :: rest => if le a b then a :: b :: rest else b :: insertLe le a rest

/-- Insertion sort on cells. -/
def sortVals (le : Val → Val → Bool) : List Val → List Val
  | [] => []
  | a :: rest => insertLe le a (sortVals le rest)




/-- Insert into a sorted string list. -/
def insertStr (a : String) : List String → List String
  | [] => [a]
  | b :: rest => if a ≤ b then a :: b :: rest else b :: insertStr a rest

/-- Insertion sort on strings (models the sorted class list that
`sklearn.preprocessing.LabelEncoder.fit` produces via `np.unique`). -/
def sortStrs : List String → List String
  | [] => []
  | a :: rest => insertStr a (sortStrs rest)





end Loan

namespace Loan

/-! ## Columnar frame model and `preprocess_data` (src/preprocess.py) -/

/-- A column of cells. -/
abbrev Col := List Val

/-- A DataFrame, modelled as an ordered association list of named columns. -/
abbrev Frame := List (String × Col)

namespace Frame

/-- The ordered list of column names. -/
def names (f : Frame) : List String := f.map (·.1)

/-- Look a column up by name (`df[c]`); `none` models the `KeyError`. -/
def col? (f : Frame) (c : String) : Option Col :=
  (f.find? (·.1 = c)).map (·.2)

/-- Drop a column by name (`df.drop(columns=[c])`). -/
def dropCol (f : Frame) (c : String) : Frame := f.filter (·.1 ≠ c)

/-- `len(df)`: the number of rows, read off the first column. -/
def nRows (f : Frame) : Nat := ((f.head?).map (fun c => c.2.length)).getD 0

end Frame

namespace Config

/-- `Config.MISSING_THRESHOLD` from DataHandling/src/utils.py. -/
def MISSING_THRESHOLD : ℚ := 7 / 10

/-- `Config.N_SPLITS`. -/
def N_SPLITS : Nat := 5

/-- `Config.NUM_BOOST_ROUND`. -/
def NUM_BOOST_ROUND : Nat := 1000

/-- `Config.EARLY_STOPPING_ROUNDS`. -/
def EARLY_STOPPING_ROUNDS : Nat := 50

end Config

/-- Number of missing cells of a column (`col.isnull().sum()`). -/
def naCount (xs : Col) : Nat := (xs.filter (·.isNa)).length

/-- Per-column missing percentage `df[c].isnull().sum() / len(df) * 100`.
The code compares floats; we compute exactly over `ℚ` (`0 / 0` is `0`
here where numpy yields NaN — in both cases the `> 70` test is false, so
the drop decision agrees). -/
def missingPct (nrows : Nat) (xs : Col) : ℚ :=
  (naCount xs : ℚ) / (nrows : ℚ) * 100

/-- Pandas `Series.median()`: drop the NaNs, sort what remains (finite
numbers and infinities), take the middle element, or the midpoint of the
two middle elements for an even count; the median of an empty sample is
NaN.  Object (string) cells never reach a median call on the paths the
theorems cover. -/
def medianVal (xs : Col) : Val :=
  let vs := sortVals Val.leB (xs.filter (fun v => !v.isNa))
  let n := vs.length
  if h : n = 0 then .na
  else if n % 2 = 1 then vs.get ⟨n / 2, by omega⟩
  else Val.mean2 (vs.get ⟨n / 2 - 1, by omega⟩) (vs.get ⟨n / 2, by omega⟩)

/-- `col.fillna(v)`: replace the missing cells by `v` (a NaN fill value
leaves the column unchanged, as in pandas). -/
def fillNa (v : Val) (xs : Col) : Col :=
  xs.map (fun x => if x.isNa then v else x)

/-- `col.replace([np.inf, -np.inf], np.nan)`. -/
def replaceInf (xs : Col) : Col :=
  xs.map (fun x => if x.isInf then .na else x)

/-- A column is categorical (object/category dtype) when it holds string
cells; `select_dtypes(include=['object', 'category'])` on the training
frame. -/
def isCatCol (xs : Col) : Bool := xs.any (·.isStr)

/-- The classes of `LabelEncoder.fit` on a cell list: the sorted distinct
`str()` images (the encoder is fit on `combined.astype(str)`). -/
def leClasses (xs : Col) : List String :=
  sortStrs ((xs.map Val.toStr).dedup)

/-- `LabelEncoder.transform` applied cell-wise: a cell becomes the integer
position of its `str()` image in the sorted class list. -/
def encodeCol (classes : List String) (xs : Col) : Col :=
  xs.map (fun v => .num ((classes.indexOf v.toStr : Nat) : ℚ))

/-- The categorical-encoding loop of `preprocess_data` (lines 234-241):
for every categorical column of the training frame, fit one encoder on
the concatenation of the train and test cells of that column and write
the codes back into each split.  The Python loop mutates one column per
iteration; distinct iterations touch distinct column names, so it is
modelled as one simultaneous map over the columns of each frame. -/
def encodeStep (train test : Frame) : Frame × Frame :=
  (train.map (fun c =>
      if isCatCol c.2 then
        (c.1, encodeCol (leClasses (c.2 ++ (test.col? c.1).getD [])) c.2)
      else c),
   test.map (fun c =>
      match train.col? c.1 with
      | some xs =>
          if isCatCol xs then
            (c.1, encodeCol (leClasses (xs ++ (test.col? c.1).getD [])) c.2)
          else c
      | none => c))

/-- `train_df.align(test_df, join='inner', axis=1)`: both outputs carry
exactly the columns whose name occurs in both frames, in one shared
order (we keep the training frame's order; pandas may sort the
intersection, but it gives the same ordering to both outputs, which is
all the claims consume). -/
def alignStep (train test : Frame) : Frame × Frame :=
  let shared := train.names.filter (· ∈ test.names)
  (train.filter (fun c => c.1 ∈ test.names),
   shared.map (fun n => (n, (test.col? n).getD [])))

/-- Lines 252-259: compute the per-column missing percentage on the
training frame only and drop from both frames every column above
`MISSING_THRESHOLD * 100`. -/
def dropMissingStep (train test : Frame) : Frame × Frame :=
  let n := train.nRows
  let high := (train.filter
      (fun c => missingPct n c.2 > Config.MISSING_THRESHOLD * 100)).map (·.1)
  (train.filter (fun c => c.1 ∉ high), test.filter (fun c => c.1 ∉ high))

/-- Lines 262-266: for every training column that still has missing
cells, fill the missing cells of that column in both frames with the
training column's median.  The loop handles distinct columns
independently, so it is one simultaneous map. -/
def imputeStep (train test : Frame) : Frame × Frame :=
  (train.map (fun c =>
      if naCount c.2 > 0 then (c.1, fillNa (medianVal c.2) c.2) else c),
   test.map (fun c =>
      match train.col? c.1 with
      | some xs =>
          if naCount xs > 0 then (c.1, fillNa (medianVal xs) c.2) else c
      | none => c))

/-- Lines 269-270: replace the infinities of both frames by NaN. -/
def replaceStep (train test : Frame) : Frame × Frame :=
  (train.map (fun c => (c.1, replaceInf c.2)),
   test.map (fun c => (c.1, replaceInf c.2)))

/-- Lines 272-273: `train_df.fillna(train_df.median())` and
`test_df.fillna(train_df.median())` — per-column fill with the training
median recomputed after infinity replacement. -/
def finalFillStep (train test : Frame) : Frame × Frame :=
  (train.map (fun c => (c.1, fillNa (medianVal c.2) c.2)),
   test.map (fun c =>
      match train.col? c.1 with
      | some xs => (c.1, fillNa (medianVal xs) c.2)
      | none => c))

/-- `preprocess_data(train_df, test_df, target)` (lines 211-279).
Returns `(X_train, X_test, y_train, train_ids, test_ids)`; `none` models
the `KeyError` raised when the target column, an `SK_ID_CURR` column, or
the test copy of a categorical training column is absent. -/
def preprocess_data (train test : Frame) (target : String := "TARGET") :
    Option (Frame × Frame × Col × Col × Col) :=
  match train.col? target with
  | none => none
  | some y =>
    let train1 := train.dropCol target
    match train1.col? "SK_ID_CURR", test.col? "SK_ID_CURR" with
    | some trainIds, some testIds =>
      let catNames := (train1.filter (fun c => isCatCol c.2)).map (·.1)
      if catNames.all (fun c => (test.col? c).isSome) then
        let p1 := encodeStep train1 test
        let p2 := (p1.1.dropCol "SK_ID_CURR", p1.2.dropCol "SK_ID_CURR")
        let p3 := alignStep p2.1 p2.2
        let p4 := dropMissingStep p3.1 p3.2
        let p5 := imputeStep p4.1 p4.2
        let p6 := replaceStep p5.1 p5.2
        let p7 := finalFillStep p6.1 p6.2
        some (p7.1, p7.2, y, trainIds, testIds)
      else none
    | _, _ => none

end Loan

namespace Loan

/-! ## Row model: groupby aggregation, merges, feature engineering -/

/-- One DataFrame row: an ordered association list of named cells. -/
abbrev Row := List (String × Val)

namespace Row

/-- Read a field (`row[c]`); absent fields read as NaN (every ledger the
pipeline consumes carries the referenced raw columns — a truly absent
column would raise a `KeyError` in pandas). -/
def getV (r : Row) (c : String) : Val :=
  ((r.find? (·.1 = c)).map (·.2)).getD .na

/-- Column assignment `df[c] = v` seen from one row: replace the field in
place when present, append it otherwise. -/
def setV (r : Row) (c : String) (v : Val) : Row :=
  if (r.find? (·.1 = c)).isSome then
    r.map (fun p => if p.1 = c then (c, v) else p)
  else r ++ [(c, v)]

end Row

/-- A grouped aggregation verb of `DataFrame.groupby(...).agg(...)`. -/
inductive AggOp where
  | count : AggOp
  | amin : AggOp
  | amax : AggOp
  | amean : AggOp
  | asum : AggOp
  | countC : AggOp
deriving DecidableEq, Repr

/-- Sum of the non-missing cells of a sample (`0` for an all-NaN sample,
as pandas `sum` with its default `min_count=0`). -/
def valSum (vs : List Val) : Val :=
  (vs.filter (fun v => !v.isNa)).foldl Val.add (.num 0)

/-- Pandas groupby aggregation semantics, NaN-skipping throughout:
`count` counts non-missing cells; `min`/`max`/`mean` of an all-missing
sample are NaN; `sum` of an all-missing sample is `0`; `countC` is the
`lambda x: (x == 'C').sum()` used on the bureau-balance `STATUS` column. -/
def aggOp : AggOp → List Val → Val
  | .count, vs => .num ((vs.filter (fun v => !v.isNa)).length : ℚ)
  | .amin, vs =>
      match sortVals Val.leB (vs.filter (fun v => !v.isNa)) with
      | [] => .na
      | a :: _ => a
  | .amax, vs =>
      match (sortVals Val.leB (vs.filter (fun v => !v.isNa))).reverse with
      | [] => .na
      | a :: _ => a
  | .amean, vs =>
      let ws := vs.filter (fun v => !v.isNa)
      if ws.length = 0 then .na
      else (valSum vs).div (.num (ws.length : ℚ))
  | .asum, vs => valSum vs
  | .countC, vs => .num ((vs.filter (fun v => v = .str "C")).length : ℚ)

/-- An aggregation recipe: source column, verb, output column name. -/
abbrev AggSpec := List (String × AggOp × String)

/-- The distinct non-missing keys of a grouped frame, in first-appearance
order (pandas sorts group keys; no claim below depends on the order of
the aggregated rows, which are consumed through key lookups). -/
def groupKeys (rows : List Row) (key : String) : List Val :=
  ((rows.map (fun r => r.getV key)).filter (fun v => !v.isNa)).dedup

/-- `rows.groupby(key).agg(spec)`: one output row per distinct key,
holding each aggregated column. -/
def groupbyAgg (rows : List Row) (key : String) (spec : AggSpec) :
    List (Val × Row) :=
  (groupKeys rows key).map (fun k =>
    let grp := rows.filter (fun r => r.getV key = k)
    (k, spec.map (fun e => (e.2.2, aggOp e.2.1 (grp.map (fun r => r.getV e.1))))))

/-- The columns an aggregation recipe produces. -/
def specNames (spec : AggSpec) : List String := spec.map (·.2.2)

/-- The fields a left merge appends to one row: the matching aggregate
row when the row's key has one, else NaN in every aggregate column. -/
def mlExtra (key : String) (agg : List (Val × Row)) (aggCols : List String)
    (r : Row) : Row :=
  match agg.find? (fun e => e.1 = r.getV key) with
  | some e => e.2
  | none => aggCols.map (fun c => (c, Val.na))

/-- Left-merge a keyed aggregate table onto rows carrying the key as a
field (`rows.merge(agg, on=key, how='left')`): every left row survives
unchanged and is extended by the matching aggregate row, or by NaN in
every aggregate column when its key has no aggregate row. -/
def mergeLeft (rows : List Row) (key : String) (agg : List (Val × Row))
    (aggCols : List String) : List Row :=
  rows.map (fun r => r ++ mlExtra key agg aggCols r)

/-- Left-merge two keyed aggregate tables on their shared key/index
(`a.merge(b, left_index=True, right_index=True, how='left')`). -/
def mergeTables (a b : List (Val × Row)) (bCols : List String) :
    List (Val × Row) :=
  a.map (fun e =>
    match b.find? (fun e2 => e2.1 = e.1) with
    | some e2 => (e.1, e.2 ++ e2.2)
    | none => (e.1, e.2 ++ bCols.map (fun c => (c, Val.na))))

end Loan

namespace Loan

/-- Elementwise multiplication with IEEE infinity/NaN semantics. -/
def Val.mul : Val → Val → Val
  | .num a, .num b => .num (a * b)
  | .inf a, .num b => if b = 0 then .na else .inf (a = decide (0 < b))
  | .num a, .inf b => if a = 0 then .na else .inf (b = decide (0 < a))
  | .inf a, .inf b => .inf (a = b)
  | _, _ => .na

/-- Negation as `0 - x`. -/
def Val.neg (v : Val) : Val := (Val.num 0).sub v

/-- Does `s` contain `pat` as a substring (the `'FLAG_DOCUMENT' in col`
test)? -/
def strContains (s pat : String) : Bool := (s.splitOn pat).length > 1

/-- Row-wise NaN-skipping sample standard deviation (`df[...].std(axis=1)`,
`ddof=1`): NaN for fewer than two present values, else the square root of
the sample variance.  Square roots leave `ℚ`, so the float square root is
an explicit parameter `sqrtF`; no claim depends on its values. -/
def stdRow (sqrtF : ℚ → ℚ) (vs : List Val) : Val :=
  let ws := vs.filterMap (fun v => match v with | .num q => some q | _ => none)
  if ws.length ≤ 1 then .na
  else
    let m := ws.sum / (ws.length : ℚ)
    .num (sqrtF ((ws.map (fun x => (x - m) ^ 2)).sum / ((ws.length : ℚ) - 1)))

/-- `(col == 1).astype(int)` at one cell. -/
def eqOneFlag (v : Val) : Val := .num (if v = .num 1 then 1 else 0)

/-- `engineer_application_features` (src/preprocess.py lines 34-81) on
one row, following the source's assignment order; `DAYS_EMPLOYED` is
replaced in place (sentinel 365243 to NaN) before the tenure features
read it. -/
def engineerRow (sqrtF : ℚ → ℚ) (r : Row) : Row :=
  let g := Row.getV
  let r := r.setV "AGE_YEARS" ((Val.neg (g r "DAYS_BIRTH")).div (.num 365))
  let r := r.setV "DAYS_EMPLOYED"
      (if g r "DAYS_EMPLOYED" = .num 365243 then .na else g r "DAYS_EMPLOYED")
  let ey := (Val.neg (g r "DAYS_EMPLOYED")).div (.num 365)
  let r := r.setV "EMPLOYMENT_YEARS" (if ey.isNa then .num 0 else ey)
  let r := r.setV "INCOME_PER_PERSON"
      ((g r "AMT_INCOME_TOTAL").div (g r "CNT_FAM_MEMBERS"))
  let r := r.setV "INCOME_PER_CHILD"
      ((g r "AMT_INCOME_TOTAL").div ((Val.num 1).add (g r "CNT_CHILDREN")))
  let r := r.setV "CREDIT_INCOME_RATIO"
      ((g r "AMT_CREDIT").div (g r "AMT_INCOME_TOTAL"))
  let r := r.setV "ANNUITY_INCOME_RATIO"
      ((g r "AMT_ANNUITY").div (g r "AMT_INCOME_TOTAL"))
  let r := r.setV "CREDIT_TERM" ((g r "AMT_CREDIT").div (g r "AMT_ANNUITY"))
  let r := r.setV "CREDIT_GOODS_RATIO"
      ((g r "AMT_CREDIT").div (g r "AMT_GOODS_PRICE"))
  let r := r.setV "PAYMENT_RATE" ((g r "AMT_ANNUITY").div (g r "AMT_CREDIT"))
  let r := r.setV "DAYS_EMPLOYED_PERCENT"
      ((g r "DAYS_EMPLOYED").div (g r "DAYS_BIRTH"))
  let ext := [g r "EXT_SOURCE_1", g r "EXT_SOURCE_2", g r "EXT_SOURCE_3"]
  let r := r.setV "EXT_SOURCE_MEAN" (aggOp .amean ext)
  let r := r.setV "EXT_SOURCE_STD" (stdRow sqrtF ext)
  let r := r.setV "EXT_SOURCE_PROD"
      (((g r "EXT_SOURCE_1").mul (g r "EXT_SOURCE_2")).mul (g r "EXT_SOURCE_3"))
  let r := r.setV "DOCUMENT_COUNT"
      (valSum ((r.filter (fun p => strContains p.1 "FLAG_DOCUMENT")).map (·.2)))
  let r := r.setV "HAS_MOBILE" (eqOneFlag (g r "FLAG_MOBIL"))
  let r := r.setV "HAS_WORK_PHONE" (eqOneFlag (g r "FLAG_WORK_PHONE"))
  let r := r.setV "HAS_PHONE" (eqOneFlag (g r "FLAG_PHONE"))
  let r := r.setV "HAS_EMAIL" (eqOneFlag (g r "FLAG_EMAIL"))
  let r := r.setV "CONTACT_COUNT"
      ((((g r "HAS_MOBILE").add (g r "HAS_WORK_PHONE")).add
          (g r "HAS_PHONE")).add (g r "HAS_EMAIL"))
  let r := r.setV "REGION_RATING_DIFF"
      ((g r "REGION_RATING_CLIENT").sub (g r "REGION_RATING_CLIENT_W_CITY"))
  r

/-- `engineer_application_features(df)`.  The first component is the
returned frame; the second is the state of the caller's frame object
after the call — the function's first statement is `df = df.copy()`, so
every later assignment hits the copy and the caller's object is
untouched. -/
def engineer_application_features (sqrtF : ℚ → ℚ) (df : List Row) :
    List Row × List Row :=
  (df.map (engineerRow sqrtF), df)

/-- Bureau-balance aggregation recipe (lines 89-93); the lambda column is
named `STATUS_<LAMBDA>` after the uppercased tuple join. -/
def bbSpec : AggSpec :=
  [("MONTHS_BALANCE", .amin, "MONTHS_BALANCE_MIN"),
   ("MONTHS_BALANCE", .amax, "MONTHS_BALANCE_MAX"),
   ("MONTHS_BALANCE", .amean, "MONTHS_BALANCE_MEAN"),
   ("STATUS", .countC, "STATUS_<LAMBDA>")]

/-- Per-applicant bureau aggregation recipe (lines 100-114). -/
def bureauSpec : AggSpec :=
  [("SK_ID_BUREAU", .count, "BUREAU_SK_ID_BUREAU_COUNT"),
   ("DAYS_CREDIT", .amin, "BUREAU_DAYS_CREDIT_MIN"),
   ("DAYS_CREDIT", .amax, "BUREAU_DAYS_CREDIT_MAX"),
   ("DAYS_CREDIT", .amean, "BUREAU_DAYS_CREDIT_MEAN"),
   ("CREDIT_DAY_OVERDUE", .amax, "BUREAU_CREDIT_DAY_OVERDUE_MAX"),
   ("CREDIT_DAY_OVERDUE", .amean, "BUREAU_CREDIT_DAY_OVERDUE_MEAN"),
   ("DAYS_CREDIT_ENDDATE", .amin, "BUREAU_DAYS_CREDIT_ENDDATE_MIN"),
   ("DAYS_CREDIT_ENDDATE", .amax, "BUREAU_DAYS_CREDIT_ENDDATE_MAX"),
   ("DAYS_CREDIT_ENDDATE", .amean, "BUREAU_DAYS_CREDIT_ENDDATE_MEAN"),
   ("AMT_CREDIT_MAX_OVERDUE", .amax, "BUREAU_AMT_CREDIT_MAX_OVERDUE_MAX"),
   ("CNT_CREDIT_PROLONG", .asum, "BUREAU_CNT_CREDIT_PROLONG_SUM"),
   ("AMT_CREDIT_SUM", .amax, "BUREAU_AMT_CREDIT_SUM_MAX"),
   ("AMT_CREDIT_SUM", .amean, "BUREAU_AMT_CREDIT_SUM_MEAN"),
   ("AMT_CREDIT_SUM", .asum, "BUREAU_AMT_CREDIT_SUM_SUM"),
   ("AMT_CREDIT_SUM_DEBT", .amax, "BUREAU_AMT_CREDIT_SUM_DEBT_MAX"),
   ("AMT_CREDIT_SUM_DEBT", .amean, "BUREAU_AMT_CREDIT_SUM_DEBT_MEAN"),
   ("AMT_CREDIT_SUM_DEBT", .asum, "BUREAU_AMT_CREDIT_SUM_DEBT_SUM"),
   ("AMT_CREDIT_SUM_OVERDUE", .amean, "BUREAU_AMT_CREDIT_SUM_OVERDUE_MEAN"),
   ("DAYS_CREDIT_UPDATE", .amin, "BUREAU_DAYS_CREDIT_UPDATE_MIN"),
   ("DAYS_CREDIT_UPDATE", .amax, "BUREAU_DAYS_CREDIT_UPDATE_MAX"),
   ("DAYS_CREDIT_UPDATE", .amean, "BUREAU_DAYS_CREDIT_UPDATE_MEAN"),
   ("AMT_ANNUITY", .amax, "BUREAU_AMT_ANNUITY_MAX"),
   ("AMT_ANNUITY", .amean, "BUREAU_AMT_ANNUITY_MEAN")]

/-- Active-credit sub-aggregate recipe (lines 117-121). -/
def bureauActiveSpec : AggSpec :=
  [("SK_ID_BUREAU", .count, "BUREAU_ACTIVE_COUNT"),
   ("AMT_CREDIT_SUM_DEBT", .asum, "BUREAU_ACTIVE_DEBT")]

/-- Closed-credit sub-aggregate recipe (lines 124-128). -/
def bureauClosedSpec : AggSpec :=
  [("SK_ID_BUREAU", .count, "BUREAU_CLOSED_COUNT"),
   ("DAYS_CREDIT", .amax, "BUREAU_CLOSED_DAYS_CREDIT_MAX")]

/-- `aggregate_bureau_features(df_bureau, df_bureau_balance)`
(lines 84-136): collapse bureau-balance per bureau-credit id, left-merge
onto bureau rows, aggregate per applicant, and left-join the active- and
closed-credit sub-aggregates. -/
def aggregate_bureau_features (bureau bb : List Row) : List (Val × Row) :=
  let bbAgg := groupbyAgg bb "SK_ID_BUREAU" bbSpec
  let bureau2 := mergeLeft bureau "SK_ID_BUREAU" bbAgg (specNames bbSpec)
  let main := groupbyAgg bureau2 "SK_ID_CURR" bureauSpec
  let active := groupbyAgg
      (bureau2.filter (fun r => r.getV "CREDIT_ACTIVE" = .str "Active"))
      "SK_ID_CURR" bureauActiveSpec
  let closed := groupbyAgg
      (bureau2.filter (fun r => r.getV "CREDIT_ACTIVE" = .str "Closed"))
      "SK_ID_CURR" bureauClosedSpec
  mergeTables (mergeTables main active (specNames bureauActiveSpec))
    closed (specNames bureauClosedSpec)

/-- The non-key columns of the bureau aggregate table. -/
def bureauAllCols : List String :=
  specNames bureauSpec ++ specNames bureauActiveSpec ++ specNames bureauClosedSpec

/-- Per-applicant previous-application recipe (lines 144-157). -/
def prevSpec : AggSpec :=
  [("SK_ID_PREV", .count, "PREV_SK_ID_PREV_COUNT"),
   ("AMT_ANNUITY", .amin, "PREV_AMT_ANNUITY_MIN"),
   ("AMT_ANNUITY", .amax, "PREV_AMT_ANNUITY_MAX"),
   ("AMT_ANNUITY", .amean, "PREV_AMT_ANNUITY_MEAN"),
   ("AMT_APPLICATION", .amin, "PREV_AMT_APPLICATION_MIN"),
   ("AMT_APPLICATION", .amax, "PREV_AMT_APPLICATION_MAX"),
   ("AMT_APPLICATION", .amean, "PREV_AMT_APPLICATION_MEAN"),
   ("AMT_CREDIT", .amin, "PREV_AMT_CREDIT_MIN"),
   ("AMT_CREDIT", .amax, "PREV_AMT_CREDIT_MAX"),
   ("AMT_CREDIT", .amean, "PREV_AMT_CREDIT_MEAN"),
   ("AMT_DOWN_PAYMENT", .amin, "PREV_AMT_DOWN_PAYMENT_MIN"),
   ("AMT_DOWN_PAYMENT", .amax, "PREV_AMT_DOWN_PAYMENT_MAX"),
   ("AMT_DOWN_PAYMENT", .amean, "PREV_AMT_DOWN_PAYMENT_MEAN"),
   ("AMT_GOODS_PRICE", .amin, "PREV_AMT_GOODS_PRICE_MIN"),
   ("AMT_GOODS_PRICE", .amax, "PREV_AMT_GOODS_PRICE_MAX"),
   ("AMT_GOODS_PRICE", .amean, "PREV_AMT_GOODS_PRICE_MEAN"),
   ("HOUR_APPR_PROCESS_START", .amin, "PREV_HOUR_APPR_PROCESS_START_MIN"),
   ("HOUR_APPR_PROCESS_START", .amax, "PREV_HOUR_APPR_PROCESS_START_MAX"),
   ("HOUR_APPR_PROCESS_START", .amean, "PREV_HOUR_APPR_PROCESS_START_MEAN"),
   ("RATE_DOWN_PAYMENT", .amin, "PREV_RATE_DOWN_PAYMENT_MIN"),
   ("RATE_DOWN_PAYMENT", .amax, "PREV_RATE_DOWN_PAYMENT_MAX"),
   ("RATE_DOWN_PAYMENT", .amean, "PREV_RATE_DOWN_PAYMENT_MEAN"),
   ("DAYS_DECISION", .amin, "PREV_DAYS_DECISION_MIN"),
   ("DAYS_DECISION", .amax, "PREV_DAYS_DECISION_MAX"),
   ("DAYS_DECISION", .amean, "PREV_DAYS_DECISION_MEAN"),
   ("CNT_PAYMENT", .amean, "PREV_CNT_PAYMENT_MEAN"),
   ("CNT_PAYMENT", .asum, "PREV_CNT_PAYMENT_SUM")]

/-- Approved sub-aggregate recipe (lines 160-164). -/
def prevApprovedSpec : AggSpec :=
  [("SK_ID_PREV", .count, "PREV_APPROVED_COUNT"),
   ("AMT_CREDIT", .asum, "PREV_APPROVED_CREDIT")]

/-- Refused sub-aggregate recipe (lines 167-170). -/
def prevRefusedSpec : AggSpec :=
  [("SK_ID_PREV", .count, "PREV_REFUSED_COUNT")]

/-- `aggregate_previous_applications(df_prev)` (lines 139-178). -/
def aggregate_previous_applications (prev : List Row) : List (Val × Row) :=
  let main := groupbyAgg prev "SK_ID_CURR" prevSpec
  let approved := groupbyAgg
      (prev.filter (fun r => r.getV "NAME_CONTRACT_STATUS" = .str "Approved"))
      "SK_ID_CURR" prevApprovedSpec
  let refused := groupbyAgg
      (prev.filter (fun r => r.getV "NAME_CONTRACT_STATUS" = .str "Refused"))
      "SK_ID_CURR" prevRefusedSpec
  mergeTables (mergeTables main approved (specNames prevApprovedSpec))
    refused (specNames prevRefusedSpec)

/-- The non-key columns of the previous-application aggregate table. -/
def prevAllCols : List String :=
  specNames prevSpec ++ specNames prevApprovedSpec ++ specNames prevRefusedSpec

/-- Per-applicant installments recipe (lines 191-204); note
`NUM_INSTALMENT_VERSION` is aggregated with `max` only. -/
def instAggSpec : AggSpec :=
  [("SK_ID_PREV", .count, "INST_SK_ID_PREV_COUNT"),
   ("NUM_INSTALMENT_NUMBER", .amax, "INST_NUM_INSTALMENT_NUMBER_MAX"),
   ("NUM_INSTALMENT_NUMBER", .amean, "INST_NUM_INSTALMENT_NUMBER_MEAN"),
   ("NUM_INSTALMENT_VERSION", .amax, "INST_NUM_INSTALMENT_VERSION_MAX"),
   ("DAYS_INSTALMENT", .amin, "INST_DAYS_INSTALMENT_MIN"),
   ("DAYS_INSTALMENT", .amax, "INST_DAYS_INSTALMENT_MAX"),
   ("DAYS_INSTALMENT", .amean, "INST_DAYS_INSTALMENT_MEAN"),
   ("DAYS_ENTRY_PAYMENT", .amin, "INST_DAYS_ENTRY_PAYMENT_MIN"),
   ("DAYS_ENTRY_PAYMENT", .amax, "INST_DAYS_ENTRY_PAYMENT_MAX"),
   ("DAYS_ENTRY_PAYMENT", .amean, "INST_DAYS_ENTRY_PAYMENT_MEAN"),
   ("AMT_INSTALMENT", .amin, "INST_AMT_INSTALMENT_MIN"),
   ("AMT_INSTALMENT", .amax, "INST_AMT_INSTALMENT_MAX"),
   ("AMT_INSTALMENT", .amean, "INST_AMT_INSTALMENT_MEAN"),
   ("AMT_INSTALMENT", .asum, "INST_AMT_INSTALMENT_SUM"),
   ("AMT_PAYMENT", .amin, "INST_AMT_PAYMENT_MIN"),
   ("AMT_PAYMENT", .amax, "INST_AMT_PAYMENT_MAX"),
   ("AMT_PAYMENT", .amean, "INST_AMT_PAYMENT_MEAN"),
   ("AMT_PAYMENT", .asum, "INST_AMT_PAYMENT_SUM"),
   ("PAYMENT_DIFF", .amin, "INST_PAYMENT_DIFF_MIN"),
   ("PAYMENT_DIFF", .amax, "INST_PAYMENT_DIFF_MAX"),
   ("PAYMENT_DIFF", .amean, "INST_PAYMENT_DIFF_MEAN"),
   ("PAYMENT_DIFF", .asum, "INST_PAYMENT_DIFF_SUM"),
   ("PAYMENT_RATIO", .amin, "INST_PAYMENT_RATIO_MIN"),
   ("PAYMENT_RATIO", .amax, "INST_PAYMENT_RATIO_MAX"),
   ("PAYMENT_RATIO", .amean, "INST_PAYMENT_RATIO_MEAN"),
   ("DAYS_PAYMENT_DELAY", .amin, "INST_DAYS_PAYMENT_DELAY_MIN"),
   ("DAYS_PAYMENT_DELAY", .amax, "INST_DAYS_PAYMENT_DELAY_MAX"),
   ("DAYS_PAYMENT_DELAY", .amean, "INST_DAYS_PAYMENT_DELAY_MEAN")]

/-- The three derived per-event columns of `aggregate_installments`
(lines 186-188), written into the caller's frame. -/
def instDerivedRow (r : Row) : Row :=
  let d := (r.getV "AMT_PAYMENT").sub (r.getV "AMT_INSTALMENT")
  let q := (r.getV "AMT_PAYMENT").div (r.getV "AMT_INSTALMENT")
  let delay := (r.getV "DAYS_ENTRY_PAYMENT").sub (r.getV "DAYS_INSTALMENT")
  ((r.setV "PAYMENT_DIFF" d).setV "PAYMENT_RATIO" q).setV "DAYS_PAYMENT_DELAY" delay

/-- `aggregate_installments(df_inst)` (lines 181-208).  The first
component is the returned aggregate table; the second is the state of
the caller's ledger object after the call — the three derived-column
assignments mutate `df_inst` in place (no copy is taken). -/
def aggregate_installments (inst : List Row) : List (Val × Row) × List Row :=
  let d := inst.map instDerivedRow
  (groupbyAgg d "SK_ID_CURR" instAggSpec, d)

/-- The in-memory feature-construction core of `run_preprocessing`
(lines 294-317): engineer applicant features, then left-merge the three
aggregated ledger tables onto the applicant frame on `SK_ID_CURR`. -/
def mergeLedgerFeatures (sqrtF : ℚ → ℚ) (app bureau bb prev inst : List Row) :
    List Row :=
  let fe := (engineer_application_features sqrtF app).1
  let f1 := mergeLeft fe "SK_ID_CURR" (aggregate_bureau_features bureau bb)
      bureauAllCols
  let f2 := mergeLeft f1 "SK_ID_CURR" (aggregate_previous_applications prev)
      prevAllCols
  mergeLeft f2 "SK_ID_CURR" (aggregate_installments inst).1
      (specNames instAggSpec)

end Loan

namespace Loan

/-! ## Training orchestration (DataHandling/src/train.py) -/

/-- `scale_pos_weight = (y_train == 0).sum() / (y_train == 1).sum()`
(train.py lines 33 and 160): numpy integer counts divided as floats, so
a zero positive count silently yields `inf` (or NaN when both counts are
zero) instead of raising. -/
def scale_pos_weight_of (y : List ℚ) : Val :=
  let neg := (y.filter (· = 0)).length
  let pos := (y.filter (· = 1)).length
  if pos = 0 then (if neg = 0 then .na else .inf true)
  else .num ((neg : ℚ) / (pos : ℚ))

/-- `y_train.iloc[idx]`: the label sub-series a fold's index list picks
out (fold indices produced by `StratifiedKFold.split` are always in
range). -/
def ilocVals (y : List ℚ) (idx : List Nat) : List ℚ :=
  idx.filterMap (fun i => y.get? i)

/-- The `scale_pos_weight` that `cross_validate` hands `train_lightgbm`
for one fold: the ratio computed over the fold's training portion
`y_train.iloc[train_idx]`. -/
def fold_scale_pos_weight (y : List ℚ) (idx : List Nat) : Val :=
  scale_pos_weight_of (ilocVals y idx)

/-- The per-fold `scale_pos_weight` values of a cross-validation run,
with the stratified fold partition (library-internal randomness) passed
in as explicit index lists. -/
def cv_scale_pos_weights (y : List ℚ) (folds : List (List Nat)) : List Val :=
  folds.map (fun idx => fold_scale_pos_weight y idx)

/-- `int(np.mean([m.best_iteration for m in cv_models]))` (train.py
line 229): Python `int()` truncates the float mean toward zero, which
for a nonnegative mean is the floor — not rounding to nearest. -/
def final_best_iteration (iters : List Nat) : Nat :=
  iters.sum / iters.length

/-- The boosting-round budget and early-stopping configuration
`train_final_model` passes to `lgb.train`. -/
structure FinalTrainPlan where
  rounds : Nat
  earlyStop : Bool
deriving DecidableEq, Repr

/-- `train_final_model` (lines 166-175): with a provided iteration count
it runs exactly that many rounds with only a logging callback; without
one it falls back to `NUM_BOOST_ROUND` rounds with early stopping. -/
def train_final_model_plan (bestIteration : Option Nat) : FinalTrainPlan :=
  match bestIteration with
  | some b => ⟨b, false⟩
  | none => ⟨Config.NUM_BOOST_ROUND, true⟩

/-- The final-refit plan of `run_training` (lines 224-233): when CV ran,
the averaged (truncated) best iteration is forwarded; otherwise `None`. -/
def run_training_plan (cvBestIters : Option (List Nat)) : FinalTrainPlan :=
  match cvBestIters with
  | some iters => train_final_model_plan (some (final_best_iteration iters))
  | none => train_final_model_plan none

/-! ## Threshold selection (DataHandling/src/evaluate.py) -/

/-- One point of `sklearn.metrics._binary_clf_curve`: cumulative false-
and true-positive counts at one distinct score threshold. -/
structure RocPoint where
  fp : Nat
  tp : Nat
  thr : ℚ
deriving DecidableEq, Repr

/-- Sorted-descending pass of `_binary_clf_curve`: walk the score-sorted
sample accumulating tp/fp and emit a point at the end of each run of
equal scores. -/
def clfRun : List (Bool × ℚ) → Nat → Nat → List RocPoint
  | [], _, _ => []
  | (b, sc) :: rest, fp, tp =>
      let fp' := if b then fp else fp + 1
      let tp' := if b then tp + 1 else tp
      match rest with
      | [] => [⟨fp', tp', sc⟩]
      | (_, sc2) :: _ =>
          if sc2 = sc then clfRun rest fp' tp'
          else ⟨fp', tp', sc⟩ :: clfRun rest fp' tp'

/-- Descending stable sort of `(label, score)` pairs by score (ties in
either direction give the same curve points, since points are emitted
only at the ends of equal-score runs). -/
def sortPairsDesc (pairs : List (Bool × ℚ)) : List (Bool × ℚ) :=
  let rec ins (a : Bool × ℚ) : List (Bool × ℚ) → List (Bool × ℚ)
    | [] => [a]
    | b :: rest => if b.2 ≤ a.2 then a :: b :: rest else b :: ins a rest
  let rec srt : List (Bool × ℚ) → List (Bool × ℚ)
    | [] => []
    | a :: rest => ins a (srt rest)
  srt pairs

/-- Keep a curve's interior points whose second difference in `fp` or
`tp` is nonzero (`roc_curve`'s `drop_intermediate`); the scan carries
the original previous point, matching numpy's second difference over the
unfiltered arrays. -/
def keepMiddles : RocPoint → List RocPoint → List RocPoint
  | _, [] => []
  | _, [_] => []
  | p, q :: r :: rest =>
      (if q.fp + q.fp ≠ p.fp + r.fp ∨ q.tp + q.tp ≠ p.tp + r.tp
       then [q] else []) ++ keepMiddles q (r :: rest)

/-- `drop_intermediate` of `sklearn.metrics.roc_curve`: applied only to
curves of more than two points; the first and last point always stay. -/
def dropIntermediate (pts : List RocPoint) : List RocPoint :=
  if pts.length ≤ 2 then pts
  else
    match pts with
    | [] => []
    | p :: rest => p :: (keepMiddles p rest ++ [rest.getLastD p])

/-- Numpy float division of two counts: `a / 0` is `inf` for `a > 0` and
NaN for `a = 0` (`roc_curve` divides by the total positive/negative
counts). -/
def divCounts (a b : Nat) : Val :=
  if b = 0 then (if a = 0 then .na else .inf true) else .num ((a : ℚ) / (b : ℚ))

/-- `sklearn.metrics.roc_curve(y_true, y_score)` (binary labels,
`pos_label=1`, default `drop_intermediate=True`): returns
`(fpr, tpr, thresholds)`, with the prepended `(0, 0)` point whose
threshold is infinity. -/
def roc_curve (y : List Bool) (s : List ℚ) :
    List Val × List Val × List Val :=
  let pts := dropIntermediate (clfRun (sortPairsDesc (y.zip s)) 0 0)
  let last := pts.getLastD ⟨0, 0, 0⟩
  ((0 :: pts.map (·.fp)).map (fun f => divCounts f last.fp),
   (0 :: pts.map (·.tp)).map (fun t => divCounts t last.tp),
   Val.inf true :: pts.map (fun p => Val.num p.thr))

/-- Strict `>` on cells as numpy compares floats while scanning for a
maximum (NaN compares false; no theorem path reaches NaN here). -/
def valGtB : Val → Val → Bool
  | .num a, .num b => decide (b < a)
  | .inf true, .inf true => false
  | .inf true, .num _ => true
  | .inf true, .inf false => true
  | .num _, .inf false => true
  | _, _ => false

/-- The largest cell of a list under `valGtB`, keeping the earliest of
equal maxima. -/
def maxVal : List Val → Val
  | [] => .na
  | a :: rest =>
      match rest with
      | [] => a
      | _ => if valGtB (maxVal rest) a then maxVal rest else a

/-- `np.argmax`: index of the first maximum. -/
def argmaxVal : List Val → Nat
  | [] => 0
  | a :: rest =>
      match rest with
      | [] => 0
      | _ => if valGtB (maxVal rest) a then argmaxVal rest + 1 else 0

/-- `find_optimal_threshold(y_true, y_pred_proba)` (evaluate.py lines
57-80): Youden's J statistic `tpr - fpr` over the ROC points, threshold
at the first maximizing index. -/
def find_optimal_threshold (y : List Bool) (s : List ℚ) : Val :=
  let c := roc_curve y s
  let j := List.zipWith Val.sub c.2.1 c.1
  (c.2.2.get? (argmaxVal j)).getD .na

end Loan

namespace Loan

/-- The installments aggregation recipe as claim C8 (spec section 4.1,
*Installments*) words it — "count plus min/max/mean/sum across instalment
amount, payment amount, payment difference; min/max/mean of payment ratio
and of payment delay; max/mean of instalment number/version; min/max/mean
of instalment and entry days".  Written out only to compare the claim
against the recipe the code actually runs. -/
def instAggSpecClaimed : List (String × AggOp) :=
  [("SK_ID_PREV", .count),
   ("AMT_INSTALMENT", .amin), ("AMT_INSTALMENT", .amax),
   ("AMT_INSTALMENT", .amean), ("AMT_INSTALMENT", .asum),
   ("AMT_PAYMENT", .amin), ("AMT_PAYMENT", .amax),
   ("AMT_PAYMENT", .amean), ("AMT_PAYMENT", .asum),
   ("PAYMENT_DIFF", .amin), ("PAYMENT_DIFF", .amax),
   ("PAYMENT_DIFF", .amean), ("PAYMENT_DIFF", .asum),
   ("PAYMENT_RATIO", .amin), ("PAYMENT_RATIO", .amax),
   ("PAYMENT_RATIO", .amean),
   ("DAYS_PAYMENT_DELAY", .amin), ("DAYS_PAYMENT_DELAY", .amax),
   ("DAYS_PAYMENT_DELAY", .amean),
   ("NUM_INSTALMENT_NUMBER", .amax), ("NUM_INSTALMENT_NUMBER", .amean),
   ("NUM_INSTALMENT_VERSION", .amax), ("NUM_INSTALMENT_VERSION", .amean),
   ("DAYS_INSTALMENT", .amin), ("DAYS_INSTALMENT", .amax),
   ("DAYS_INSTALMENT", .amean),
   ("DAYS_ENTRY_PAYMENT", .amin), ("DAYS_ENTRY_PAYMENT", .amax),
   ("DAYS_ENTRY_PAYMENT", .amean)]

/-- A one-event installments ledger used to evaluate the aggregation at a
concrete input. -/
def instLedgerEx : List Row :=
  [[("SK_ID_PREV", .num 7), ("SK_ID_CURR", .num 1),
    ("NUM_INSTALMENT_VERSION", .num 1), ("NUM_INSTALMENT_NUMBER", .num 1),
    ("DAYS_INSTALMENT", .num (-30)), ("DAYS_ENTRY_PAYMENT", .num (-29)),
    ("AMT_INSTALMENT", .num 100), ("AMT_PAYMENT", .num 100)]]


end Loan

namespace Loan

/-- A 20-row training frame for the missingness scenario: column "A" is
75% missing, column "B" is 65% missing with training median 40. -/
def trMiss : Frame :=
  [("TARGET", (List.range 20).map (fun i => Val.num (i % 2))),
   ("SK_ID_CURR", (List.range 20).map (fun i => Val.num i)),
   ("A", List.replicate 15 Val.na ++
      [Val.num 1, Val.num 2, Val.num 3, Val.num 4, Val.num 5]),
   ("B", List.replicate 13 Val.na ++
      [Val.num 10, Val.num 20, Val.num 30, Val.num 40, Val.num 50,
       Val.num 60, Val.num 70])]

/-- The matching two-row test frame for the missingness scenario. -/
def teMiss : Frame :=
  [("SK_ID_CURR", [Val.num 100, Val.num 101]),
   ("A", [Val.na, Val.num 9]),
   ("B", [Val.na, Val.num 25])]


end Loan

namespace Loan

/-- The Youden J score list of `find_optimal_threshold` (evaluate.py
line 72): `tpr - fpr`, elementwise over the ROC points. -/
def jScores (y : List Bool) (s : List ℚ) : List Val :=
  List.zipWith Val.sub (roc_curve y s).2.1 (roc_curve y s).1


end Loan

namespace Loan

/-- Every cell of a column is a finite number. -/
def colNum (xs : Col) : Prop := ∀ v ∈ xs, v.isNum = true

/-- Every cell of every column of a frame is a finite number. -/
def frameNum (f : Frame) : Prop := ∀ c ∈ f, colNum c.2

/-- A training frame whose feature column holds only an infinity: after
infinity replacement its median is NaN, so the final fill leaves NaN in
the output. -/
def trInf : Frame :=
  [("TARGET", [Val.num 0]), ("SK_ID_CURR", [Val.num 1]),
   ("A", [Val.inf true])]

/-- The matching test frame for the all-infinity scenario. -/
def teInf : Frame :=
  [("SK_ID_CURR", [Val.num 2]), ("A", [Val.num 5])]

/-- A small well-behaved training frame: numeric feature column with one
missing cell, so every preprocessing stage does real work. -/
def trClean : Frame :=
  [("TARGET", [Val.num 0, Val.num 1]),
   ("SK_ID_CURR", [Val.num 1, Val.num 2]),
   ("A", [Val.num 3, Val.na])]

/-- The matching well-behaved test frame. -/
def teClean : Frame :=
  [("SK_ID_CURR", [Val.num 7]), ("A", [Val.num 9])]


end Loan

namespace Loan

/-! ## Theorems -/

theorem insertLe_perm (le : Val → Val → Bool) (a : Val) (l : List Val) :
    (insertLe le a l).Perm (a :: l) := by
  induction l with
  | nil => simp [insertLe]
  | cons b rest ih =>
      simp only [insertLe]
      split
      · exact List.Perm.refl _
      · exact ((ih.cons b).trans (List.Perm.swap a b rest))

theorem sortVals_perm (le : Val → Val → Bool) (l : List Val) :
    (sortVals le l).Perm l := by
  induction l with
  | nil => simp [sortVals]
  | cons a rest ih =>
      exact (insertLe_perm le a (sortVals le rest)).trans (ih.cons a)

theorem mem_sortVals {le : Val → Val → Bool} {a : Val} {l : List Val} :
    a ∈ sortVals le l ↔ a ∈ l :=
  (sortVals_perm le l).mem_iff

theorem insertStr_perm (a : String) (l : List String) :
    (insertStr a l).Perm (a :: l) := by
  induction l with
  | nil => simp [insertStr]
  | cons b rest ih =>
      simp only [insertStr]
      split
      · exact List.Perm.refl _
      · exact ((ih.cons b).trans (List.Perm.swap a b rest))

theorem sortStrs_perm (l : List String) : (sortStrs l).Perm l := by
  induction l with
  | nil => simp [sortStrs]
  | cons a rest ih =>
      exact (insertStr_perm a (sortStrs rest)).trans (ih.cons a)

theorem mem_sortStrs {a : String} {l : List String} :
    a ∈ sortStrs l ↔ a ∈ l :=
  (sortStrs_perm l).mem_iff

theorem sortStrs_nodup {l : List String} (h : l.Nodup) :
    (sortStrs l).Nodup :=
  (sortStrs_perm l).nodup_iff.mpr h

theorem count_eq_filter_length (l : List ℚ) (a : ℚ) :
    l.count a = (l.filter (· = a)).length := by
  rw [List.count_eq_countP, List.countP_eq_length_filter]
  have he : (fun x : ℚ => x == a) = (fun x : ℚ => decide (x = a)) := by
    funext x
    by_cases h : x = a <;> simp [h]
  rw [he]

/-- C3 (counterexample): with per-fold best iterations `[1, 1, 2, 2, 2]`
the final refit uses `int(mean) = 1` boosting rounds, while the mean
`8/5` rounded to the nearest integer is `2` — line 229 of train.py
truncates the mean, it does not round it. -/
theorem C3_counterexample :
    (run_training_plan (some [1, 1, 2, 2, 2])).rounds = 1 ∧
      round ((Nat.cast ([1, 1, 2, 2, 2] : List Nat).sum : ℚ) /
        (Nat.cast ([1, 1, 2, 2, 2] : List Nat).length : ℚ)) = 2 ∧ (1 : ℤ) ≠ 2 := by
  refine ⟨rfl, by with_unfolding_all decide, by decide⟩

/-- C3 (amended): when cross-validation runs, the final-refit iteration
count equals the floor (the Python `int()` truncation) of the mean of
the per-fold best iterations, and the final refit runs for exactly that
many boosting rounds with no early-stopping callback. -/
theorem C3_run_training_refit_plan (iters : List Nat) (h : iters ≠ []) :
    (run_training_plan (some iters)).rounds =
        ⌊(Nat.cast iters.sum : ℚ) / (Nat.cast iters.length : ℚ)⌋₊ ∧
      (run_training_plan (some iters)).earlyStop = false := by
  refine ⟨?_, rfl⟩
  simp only [run_training_plan, train_final_model_plan, final_best_iteration,
    Nat.floor_div_eq_div]

/-- Witness for C3: the amended statement applied to best iterations
`[3, 4]`. -/
theorem C3_witness :
    ([3, 4] : List Nat) ≠ [] ∧
      (run_training_plan (some [3, 4])).rounds =
          ⌊(Nat.cast ([3, 4] : List Nat).sum : ℚ) /
            (Nat.cast ([3, 4] : List Nat).length : ℚ)⌋₊ ∧
      (run_training_plan (some [3, 4])).earlyStop = false :=
  ⟨by decide, (C3_run_training_refit_plan [3, 4] (by decide)).1,
    (C3_run_training_refit_plan [3, 4] (by decide)).2⟩

/-- C2 (counterexample): the fold training portion selected by indices
`[0, 1, 2]` from labels `[0, 0, 0, 1]` has zero positive labels, and the
guard-free division of train.py line 33 silently returns `+inf` — the
computation (total, with no error outcome, exactly as in the code) does
not raise any detectable error. -/
theorem C2_counterexample :
    (ilocVals [0, 0, 0, 1] [0, 1, 2]).count 1 = 0 ∧
      fold_scale_pos_weight [0, 0, 0, 1] [0, 1, 2] = Val.inf true := by
  constructor <;> rfl

/-- C2 (amended): for every cross-validation fold, the
`scale_pos_weight` handed to training equals the count of labels `0`
divided by the count of labels `1` over that fold's training portion
`y.iloc[train_idx]`; when the portion has no positive label the
computation silently yields `+inf` (NaN when it has no negative label
either), never a raised error. -/
theorem C2_fold_scale_pos_weight (y : List ℚ) (folds : List (List Nat))
    (idx : List Nat) (hidx : idx ∈ folds) :
    fold_scale_pos_weight y idx ∈ cv_scale_pos_weights y folds ∧
      ((ilocVals y idx).count 1 ≠ 0 →
        fold_scale_pos_weight y idx =
          Val.num (((ilocVals y idx).count 0 : ℚ) /
            ((ilocVals y idx).count 1 : ℚ))) ∧
      ((ilocVals y idx).count 1 = 0 → (ilocVals y idx).count 0 ≠ 0 →
        fold_scale_pos_weight y idx = Val.inf true) ∧
      ((ilocVals y idx).count 1 = 0 → (ilocVals y idx).count 0 = 0 →
        fold_scale_pos_weight y idx = Val.na) := by
  have hc0 := count_eq_filter_length (ilocVals y idx) 0
  have hc1 := count_eq_filter_length (ilocVals y idx) 1
  refine ⟨List.mem_map_of_mem _ hidx, ?_, ?_, ?_⟩
  · intro h
    rw [hc1] at h
    simp only [fold_scale_pos_weight, scale_pos_weight_of, if_neg h, hc0, hc1]
  · intro h1 h0
    rw [hc1] at h1
    rw [hc0] at h0
    simp only [fold_scale_pos_weight, scale_pos_weight_of, if_pos h1, if_neg h0]
  · intro h1 h0
    rw [hc1] at h1
    rw [hc0] at h0
    simp only [fold_scale_pos_weight, scale_pos_weight_of, if_pos h1, if_pos h0]

/-- Witness for C2: the amended statement applied to labels
`[0, 1, 0, 1, 0]` with fold training indices `[0, 1, 2]`. -/
theorem C2_witness :
    [0, 1, 2] ∈ [[0, 1, 2], [3, 4]] ∧
      fold_scale_pos_weight [0, 1, 0, 1, 0] [0, 1, 2] ∈
        cv_scale_pos_weights [0, 1, 0, 1, 0] [[0, 1, 2], [3, 4]] ∧
      fold_scale_pos_weight [0, 1, 0, 1, 0] [0, 1, 2] = Val.num 2 := by
  have h := C2_fold_scale_pos_weight [0, 1, 0, 1, 0] [[0, 1, 2], [3, 4]]
      [0, 1, 2] (by decide)
  refine ⟨by decide, h.1, ?_⟩
  have h2 := h.2.1 (by decide)
  rw [h2]
  with_unfolding_all decide


end Loan

namespace Loan

theorem find?_setV_map_self (r : Row) (c : String) (v : Val) :
    ((r.map (fun p => if p.1 = c then (c, v) else p)).find? (·.1 = c)) =
      ((r.find? (·.1 = c)).map (fun _ => (c, v))) := by
  induction r with
  | nil => rfl
  | cons p rest ih =>
      by_cases hc : p.1 = c
      · simp [List.find?_cons, hc]
      · simp only [List.map_cons, if_neg hc]
        rw [List.find?_cons_of_neg _ (by simpa using hc),
          List.find?_cons_of_neg _ (by simpa using hc), ih]

theorem find?_setV_map_ne (r : Row) {c c' : String} (v : Val) (h : c' ≠ c) :
    ((r.map (fun p => if p.1 = c then (c, v) else p)).find? (·.1 = c')) =
      r.find? (·.1 = c') := by
  induction r with
  | nil => rfl
  | cons p rest ih =>
      by_cases hc : p.1 = c
      · have hp : ¬ p.1 = c' := by
          rw [hc]
          exact fun hcc => h hcc.symm
        simp only [List.map_cons, if_pos hc]
        rw [List.find?_cons_of_neg _ (by simpa using fun hcc => h hcc.symm),
          List.find?_cons_of_neg _ (by simpa using hp), ih]
      · simp only [List.map_cons, if_neg hc]
        by_cases hp : p.1 = c'
        · rw [List.find?_cons_of_pos _ (by simpa using hp),
            List.find?_cons_of_pos _ (by simpa using hp)]
        · rw [List.find?_cons_of_neg _ (by simpa using hp),
            List.find?_cons_of_neg _ (by simpa using hp), ih]

theorem getV_setV_self (r : Row) (c : String) (v : Val) :
    (r.setV c v).getV c = v := by
  unfold Row.setV Row.getV
  by_cases hs : (r.find? (·.1 = c)).isSome
  · rw [if_pos hs, find?_setV_map_self]
    obtain ⟨p, hp⟩ := Option.isSome_iff_exists.mp hs
    rw [hp]
    rfl
  · rw [if_neg hs]
    have hn : r.find? (·.1 = c) = none := by
      cases hf : r.find? (·.1 = c) with
      | none => rfl
      | some p => exact absurd (by simp [hf]) hs
    rw [List.find?_append, hn]
    simp [List.find?_cons]

theorem getV_setV_ne (r : Row) {c c' : String} (v : Val) (h : c' ≠ c) :
    (r.setV c v).getV c' = r.getV c' := by
  unfold Row.setV Row.getV
  by_cases hs : (r.find? (·.1 = c)).isSome
  · rw [if_pos hs, find?_setV_map_ne r v h]
  · rw [if_neg hs, List.find?_append]
    have : List.find? (fun p => p.1 = c') [(c, v)] = none := by
      have hcc : decide (c = c') = false :=
        decide_eq_false (fun hcc => h hcc.symm)
      simp [List.find?_cons, hcc]
    rw [this]
    cases r.find? (·.1 = c') <;> rfl

/-- The three derived installment columns read back from a derived row,
and every other field is untouched. -/
theorem instDerivedRow_getV (r : Row) :
    (instDerivedRow r).getV "PAYMENT_DIFF" =
        (r.getV "AMT_PAYMENT").sub (r.getV "AMT_INSTALMENT") ∧
      (instDerivedRow r).getV "PAYMENT_RATIO" =
        (r.getV "AMT_PAYMENT").div (r.getV "AMT_INSTALMENT") ∧
      (instDerivedRow r).getV "DAYS_PAYMENT_DELAY" =
        (r.getV "DAYS_ENTRY_PAYMENT").sub (r.getV "DAYS_INSTALMENT") ∧
      ∀ c : String, c ≠ "PAYMENT_DIFF" → c ≠ "PAYMENT_RATIO" →
        c ≠ "DAYS_PAYMENT_DELAY" → (instDerivedRow r).getV c = r.getV c := by
  unfold instDerivedRow
  refine ⟨?_, ?_, ?_, ?_⟩
  · rw [getV_setV_ne _ _ (by decide), getV_setV_ne _ _ (by decide),
      getV_setV_self]
  · rw [getV_setV_ne _ _ (by decide), getV_setV_self]
  · rw [getV_setV_self]
  · intro c h1 h2 h3
    rw [getV_setV_ne _ _ h3, getV_setV_ne _ _ h2, getV_setV_ne _ _ h1]

end Loan

namespace Loan

/-- C10: the applicant-level feature engineering function returns a new
frame and leaves the caller's frame object unchanged (it starts with
`df = df.copy()`), whereas the installments aggregation assigns its three
derived columns `PAYMENT_DIFF`, `PAYMENT_RATIO` and `DAYS_PAYMENT_DELAY`
straight into the caller's ledger object, which afterwards holds every
original field unchanged plus the three derived columns. -/
theorem C10_frame_effects (sqrtF : ℚ → ℚ) (df inst : List Row) :
    (engineer_application_features sqrtF df).2 = df ∧
      (aggregate_installments inst).2.length = inst.length ∧
      (∀ i : Nat, (aggregate_installments inst).2[i]? =
        (inst[i]?).map instDerivedRow) ∧
      ∀ r ∈ inst,
        (instDerivedRow r).getV "PAYMENT_DIFF" =
            (r.getV "AMT_PAYMENT").sub (r.getV "AMT_INSTALMENT") ∧
        (instDerivedRow r).getV "PAYMENT_RATIO" =
            (r.getV "AMT_PAYMENT").div (r.getV "AMT_INSTALMENT") ∧
        (instDerivedRow r).getV "DAYS_PAYMENT_DELAY" =
            (r.getV "DAYS_ENTRY_PAYMENT").sub (r.getV "DAYS_INSTALMENT") ∧
        ∀ c : String, c ≠ "PAYMENT_DIFF" → c ≠ "PAYMENT_RATIO" →
          c ≠ "DAYS_PAYMENT_DELAY" → (instDerivedRow r).getV c = r.getV c := by
  refine ⟨rfl, by simp [aggregate_installments], ?_, ?_⟩
  · intro i
    simp [aggregate_installments, List.getElem?_map]
  · intro r _
    exact instDerivedRow_getV r

/-- Witness for C10: the frame effects at a one-row applicant frame and
the one-event ledger `instLedgerEx`. -/
theorem C10_witness :
    (engineer_application_features id
        [[("DAYS_BIRTH", Val.num (-7300))]]).2 =
      [[("DAYS_BIRTH", Val.num (-7300))]] ∧
      [("SK_ID_PREV", Val.num 7), ("SK_ID_CURR", Val.num 1),
        ("NUM_INSTALMENT_VERSION", Val.num 1),
        ("NUM_INSTALMENT_NUMBER", Val.num 1),
        ("DAYS_INSTALMENT", Val.num (-30)),
        ("DAYS_ENTRY_PAYMENT", Val.num (-29)),
        ("AMT_INSTALMENT", Val.num 100), ("AMT_PAYMENT", Val.num 100)] ∈
        instLedgerEx ∧
      (instDerivedRow
          [("SK_ID_PREV", Val.num 7), ("SK_ID_CURR", Val.num 1),
            ("NUM_INSTALMENT_VERSION", Val.num 1),
            ("NUM_INSTALMENT_NUMBER", Val.num 1),
            ("DAYS_INSTALMENT", Val.num (-30)),
            ("DAYS_ENTRY_PAYMENT", Val.num (-29)),
            ("AMT_INSTALMENT", Val.num 100),
            ("AMT_PAYMENT", Val.num 100)]).getV "PAYMENT_DIFF" =
        (Val.num 100).sub (Val.num 100) := by
  refine ⟨(C10_frame_effects id [[("DAYS_BIRTH", Val.num (-7300))]]
      instLedgerEx).1, by decide, ?_⟩
  have h := ((C10_frame_effects id [[("DAYS_BIRTH", Val.num (-7300))]]
      instLedgerEx).2.2.2
      [("SK_ID_PREV", Val.num 7), ("SK_ID_CURR", Val.num 1),
        ("NUM_INSTALMENT_VERSION", Val.num 1),
        ("NUM_INSTALMENT_NUMBER", Val.num 1),
        ("DAYS_INSTALMENT", Val.num (-30)),
        ("DAYS_ENTRY_PAYMENT", Val.num (-29)),
        ("AMT_INSTALMENT", Val.num 100), ("AMT_PAYMENT", Val.num 100)]
      (by decide)).1
  rw [h]
  rfl

theorem getV_map_spec (spec : AggSpec) (g : String × AggOp × String → Val)
    (hnd : (specNames spec).Nodup) :
    ∀ e ∈ spec, Row.getV (spec.map (fun x => (x.2.2, g x))) e.2.2 = g e := by
  induction spec with
  | nil => intro e he; cases he
  | cons a rest ih =>
      intro e he
      cases he with
      | head =>
          unfold Row.getV
          rw [List.map_cons, List.find?_cons_of_pos _ (by simp)]
          rfl
      | tail _ hmem =>
          have hnd2 : (a.2.2 :: specNames rest).Nodup := hnd
          have hne : a.2.2 ≠ e.2.2 := by
            intro hcc
            exact (List.nodup_cons.mp hnd2).1
              (hcc ▸ List.mem_map_of_mem _ hmem)
          have hrest : (specNames rest).Nodup := (List.nodup_cons.mp hnd2).2
          unfold Row.getV
          rw [List.map_cons, List.find?_cons_of_neg _ (by simpa using hne)]
          exact ih hrest e hmem
end Loan

namespace Loan

/-- C8 (counterexample): the claimed recipe aggregates the instalment
version with max AND mean, but the recipe the code runs (train of
`.agg` verbs at src/preprocess.py line 194: `['max']` only) has no
mean-of-version entry, and on the concrete ledger `instLedgerEx` the
aggregated row carries no `INST_NUM_INSTALMENT_VERSION_MEAN` column. -/
theorem C8_counterexample :
    ("NUM_INSTALMENT_VERSION", AggOp.amean) ∈ instAggSpecClaimed ∧
      ("NUM_INSTALMENT_VERSION", AggOp.amean) ∉
        instAggSpec.map (fun e => (e.1, e.2.1)) ∧
      ((aggregate_installments instLedgerEx).1.map
          (fun e => e.2.map (·.1))) =
        [specNames instAggSpec] ∧
      "INST_NUM_INSTALMENT_VERSION_MEAN" ∉ specNames instAggSpec := by
  refine ⟨by decide, by decide, ?_, by decide⟩
  with_unfolding_all decide

/-- C8 (amended): the installments aggregation first writes the three
derived per-event columns (payment minus scheduled amount, payment over
scheduled amount, entry day minus scheduled day) into the ledger, then
groups per applicant — one aggregate row per distinct `SK_ID_CURR` —
into a count plus min/max/mean/sum of instalment amount, payment amount
and payment difference, min/max/mean of payment ratio and of payment
delay, max and mean of the instalment number, max (only) of the
instalment version, and min/max/mean of instalment and entry days. -/
theorem C8_aggregate_installments (inst : List Row) :
    (∀ r ∈ inst,
      (instDerivedRow r).getV "PAYMENT_DIFF" =
          (r.getV "AMT_PAYMENT").sub (r.getV "AMT_INSTALMENT") ∧
        (instDerivedRow r).getV "PAYMENT_RATIO" =
          (r.getV "AMT_PAYMENT").div (r.getV "AMT_INSTALMENT") ∧
        (instDerivedRow r).getV "DAYS_PAYMENT_DELAY" =
          (r.getV "DAYS_ENTRY_PAYMENT").sub (r.getV "DAYS_INSTALMENT")) ∧
      ((aggregate_installments inst).1.map (·.1) =
        groupKeys (inst.map instDerivedRow) "SK_ID_CURR") ∧
      ∀ e ∈ (aggregate_installments inst).1,
        e.2.map (·.1) =
            ["INST_SK_ID_PREV_COUNT", "INST_NUM_INSTALMENT_NUMBER_MAX",
             "INST_NUM_INSTALMENT_NUMBER_MEAN",
             "INST_NUM_INSTALMENT_VERSION_MAX", "INST_DAYS_INSTALMENT_MIN",
             "INST_DAYS_INSTALMENT_MAX", "INST_DAYS_INSTALMENT_MEAN",
             "INST_DAYS_ENTRY_PAYMENT_MIN", "INST_DAYS_ENTRY_PAYMENT_MAX",
             "INST_DAYS_ENTRY_PAYMENT_MEAN", "INST_AMT_INSTALMENT_MIN",
             "INST_AMT_INSTALMENT_MAX", "INST_AMT_INSTALMENT_MEAN",
             "INST_AMT_INSTALMENT_SUM", "INST_AMT_PAYMENT_MIN",
             "INST_AMT_PAYMENT_MAX", "INST_AMT_PAYMENT_MEAN",
             "INST_AMT_PAYMENT_SUM", "INST_PAYMENT_DIFF_MIN",
             "INST_PAYMENT_DIFF_MAX", "INST_PAYMENT_DIFF_MEAN",
             "INST_PAYMENT_DIFF_SUM", "INST_PAYMENT_RATIO_MIN",
             "INST_PAYMENT_RATIO_MAX", "INST_PAYMENT_RATIO_MEAN",
             "INST_DAYS_PAYMENT_DELAY_MIN", "INST_DAYS_PAYMENT_DELAY_MAX",
             "INST_DAYS_PAYMENT_DELAY_MEAN"] ∧
          ∀ s ∈ instAggSpec,
            Row.getV e.2 s.2.2 =
              aggOp s.2.1 (((inst.map instDerivedRow).filter
                  (fun r => r.getV "SK_ID_CURR" = e.1)).map
                (fun r => r.getV s.1)) := by
  refine ⟨?_, ?_, ?_⟩
  · intro r _
    exact ⟨(instDerivedRow_getV r).1, (instDerivedRow_getV r).2.1,
      (instDerivedRow_getV r).2.2.1⟩
  · simp only [aggregate_installments, groupbyAgg, List.map_map]
    have hcomp : ((fun x : Val × Row => x.1) ∘ fun k : Val =>
        (k, instAggSpec.map (fun e =>
          (e.2.2, aggOp e.2.1 (((inst.map instDerivedRow).filter
            (fun r => r.getV "SK_ID_CURR" = k)).map
              (fun r => r.getV e.1)))))) = fun k => k := rfl
    rw [hcomp, List.map_id']
  · intro e he
    simp only [aggregate_installments, groupbyAgg, List.mem_map] at he
    obtain ⟨k, hk, rfl⟩ := he
    constructor
    · rfl
    · intro s hs
      exact getV_map_spec instAggSpec
        (fun x => aggOp x.2.1 (((inst.map instDerivedRow).filter
          (fun r => r.getV "SK_ID_CURR" = k)).map (fun r => r.getV x.1)))
        (by decide) s hs

end Loan

namespace Loan

/-- Witness for C8: the amended aggregation statement applied to the
one-event ledger `instLedgerEx`, reading the max-of-version cell of its
single aggregate row. -/
theorem C8_witness :
    ((aggregate_installments instLedgerEx).1.map (·.1) =
        groupKeys (instLedgerEx.map instDerivedRow) "SK_ID_CURR") ∧
      Row.getV ((aggregate_installments instLedgerEx).1.headD
          (Val.na, [])).2 "INST_NUM_INSTALMENT_VERSION_MAX" =
        aggOp AggOp.amax (((instLedgerEx.map instDerivedRow).filter
          (fun r => r.getV "SK_ID_CURR" =
            ((aggregate_installments instLedgerEx).1.headD
              (Val.na, [])).1)).map
          (fun r => r.getV "NUM_INSTALMENT_VERSION")) := by
  have h := C8_aggregate_installments instLedgerEx
  refine ⟨h.2.1, ?_⟩
  exact (h.2.2 ((aggregate_installments instLedgerEx).1.headD (Val.na, []))
      (by with_unfolding_all decide)).2
      ("NUM_INSTALMENT_VERSION", AggOp.amax, "INST_NUM_INSTALMENT_VERSION_MAX")
      (by decide)

end Loan

namespace Loan

theorem col?_some_mem {f : Frame} {nm : String} {xs : Col}
    (h : f.col? nm = some xs) : (nm, xs) ∈ f := by
  unfold Frame.col? at h
  cases hf : f.find? (·.1 = nm) with
  | none => rw [hf] at h; cases h
  | some p =>
      rw [hf] at h
      have hp : p.1 = nm := by simpa using List.find?_some hf
      have hmem := List.mem_of_find?_eq_some hf
      have hx : p.2 = xs := by simpa using h
      obtain ⟨a, b⟩ := p
      rw [← hp, ← hx]
      exact hmem

/-- C4: for every categorical column the label encoding is fit on the
concatenation of the train and test cells of that column; both splits
are rewritten with codes from that one class list, every value occurring
in either split has its string image in the class list (hence a
well-defined code below the class count), and two cells get the same
code exactly when they have the same string image — in particular the
same raw value always maps to the same code in both splits. -/
theorem C4_encode_fit_on_concat (train test : Frame) (nm : String)
    (xs ys : Col) (htr : train.col? nm = some xs)
    (hte : test.col? nm = some ys) (hcat : isCatCol xs = true) :
    (nm, encodeCol (leClasses (xs ++ ys)) xs) ∈ (encodeStep train test).1 ∧
      (nm, encodeCol (leClasses (xs ++ ys)) ys) ∈
        (encodeStep train test).2 ∧
      (∀ v ∈ xs ++ ys, v.toStr ∈ leClasses (xs ++ ys) ∧
        (leClasses (xs ++ ys)).indexOf v.toStr <
          (leClasses (xs ++ ys)).length) ∧
      ∀ v ∈ xs ++ ys, ∀ w ∈ xs ++ ys,
        ((leClasses (xs ++ ys)).indexOf v.toStr =
          (leClasses (xs ++ ys)).indexOf w.toStr ↔ v.toStr = w.toStr) := by
  have hclass : ∀ v ∈ xs ++ ys, v.toStr ∈ leClasses (xs ++ ys) := by
    intro v hv
    unfold leClasses
    rw [mem_sortStrs, List.mem_dedup]
    exact List.mem_map_of_mem _ hv
  refine ⟨?_, ?_, ?_, ?_⟩
  · have hmem := col?_some_mem htr
    have h := List.mem_map_of_mem (fun c =>
      if isCatCol c.2 then
        (c.1, encodeCol (leClasses (c.2 ++ (test.col? c.1).getD [])) c.2)
      else c) hmem
    simpa [encodeStep, hcat, hte] using h
  · have hmem := col?_some_mem hte
    have h := List.mem_map_of_mem (fun c =>
      match train.col? c.1 with
      | some zs =>
          if isCatCol zs then
            (c.1, encodeCol (leClasses (zs ++ (test.col? c.1).getD [])) c.2)
          else c
      | none => c) hmem
    simpa [encodeStep, htr, hcat, hte] using h
  · intro v hv
    exact ⟨hclass v hv, List.indexOf_lt_length.mpr (hclass v hv)⟩
  · intro v hv w hw
    exact List.indexOf_inj (hclass v hv) (hclass w hw)

/-- Witness for C4: the encoding statement at a two-cell categorical
column with a category ("F") seen only in the test split. -/
theorem C4_witness :
    Frame.col? [("G", [Val.str "M", Val.na])] "G" =
        some [Val.str "M", Val.na] ∧
      Frame.col? [("G", [Val.str "F"])] "G" = some [Val.str "F"] ∧
      isCatCol [Val.str "M", Val.na] = true ∧
      ("G", encodeCol (leClasses ([Val.str "M", Val.na] ++ [Val.str "F"]))
          [Val.str "M", Val.na]) ∈
        (encodeStep [("G", [Val.str "M", Val.na])]
          [("G", [Val.str "F"])]).1 ∧
      ("G", encodeCol (leClasses ([Val.str "M", Val.na] ++ [Val.str "F"]))
          [Val.str "F"]) ∈
        (encodeStep [("G", [Val.str "M", Val.na])]
          [("G", [Val.str "F"])]).2 := by
  have h := C4_encode_fit_on_concat [("G", [Val.str "M", Val.na])]
      [("G", [Val.str "F"])] "G" [Val.str "M", Val.na] [Val.str "F"]
      (by decide) (by decide) (by decide)
  exact ⟨by decide, by decide, by decide, h.1, h.2.1⟩

end Loan

namespace Loan

theorem naCount_encodeCol (classes : List String) (xs : Col) :
    naCount (encodeCol classes xs) = 0 := by
  induction xs with
  | nil => rfl
  | cons v rest ih => simpa [naCount, encodeCol, Val.isNa] using ih

theorem mem_eq_of_names_nodup :
    ∀ {tr : Frame}, tr.names.Nodup → ∀ {c c' : String × Col},
      c ∈ tr → c' ∈ tr → c.1 = c'.1 → c = c' := by
  intro tr
  induction tr with
  | nil => intro _ c c' hc; cases hc
  | cons a rest ih =>
      intro hnd c c' hc hc' hcc
      have hnd2 : (a.1 :: rest.map (·.1)).Nodup := hnd
      cases hc with
      | head =>
          cases hc' with
          | head => rfl
          | tail _ hm =>
              exact absurd (hcc ▸ List.mem_map_of_mem (·.1) hm)
                (List.nodup_cons.mp hnd2).1
      | tail _ hm =>
          cases hc' with
          | head =>
              exact absurd (hcc ▸ List.mem_map_of_mem (·.1) hm)
                (List.nodup_cons.mp hnd2).1
          | tail _ hm' =>
              exact ih (List.nodup_cons.mp hnd2).2 hm hm' hcc

theorem dropMissing_keeps_noNa (tr te : Frame) (c : String × Col)
    (hc : c ∈ tr) (h0 : naCount c.2 = 0) (hnd : tr.names.Nodup) :
    c ∈ (dropMissingStep tr te).1 := by
  unfold dropMissingStep
  refine List.mem_filter.mpr ⟨hc, ?_⟩
  simp only [decide_eq_true_eq]
  intro hhigh
  obtain ⟨c', hc', hcc⟩ := List.mem_map.mp hhigh
  have hc'tr := List.mem_filter.mp hc'
  have : c' = c := mem_eq_of_names_nodup hnd hc'tr.1 hc hcc
  rw [this] at hc'tr
  have hgt := of_decide_eq_true hc'tr.2
  rw [missingPct, h0] at hgt
  norm_num [Config.MISSING_THRESHOLD] at hgt

theorem impute_keeps_noNa (tr te : Frame) (c : String × Col)
    (hc : c ∈ tr) (h0 : naCount c.2 = 0) :
    c ∈ (imputeStep tr te).1 := by
  unfold imputeStep
  have h := List.mem_map_of_mem (fun c =>
      if naCount c.2 > 0 then (c.1, fillNa (medianVal c.2) c.2) else c) hc
  simpa [h0] using h

/-- C9: because `combined.astype(str)` turns NaN into the literal string
"nan", a missing cell of a categorical column is encoded as the ordinary
category "nan" — its own integer code, identical in both splits — so the
encoded column contains zero missing cells in either split, and the
later stages never touch such a column: the missing-fraction filter
keeps every zero-NaN column and the imputation loop leaves it unchanged. -/
theorem C9_nan_category (train test : Frame) (nm : String) (xs ys : Col)
    (htr : train.col? nm = some xs) (hte : test.col? nm = some ys)
    (hcat : isCatCol xs = true) (hna : Val.na ∈ xs) :
    "nan" ∈ leClasses (xs ++ ys) ∧
      (∀ v ∈ xs ++ ys, v.isNa = true →
        Val.num ((leClasses (xs ++ ys)).indexOf v.toStr : ℚ) =
          Val.num ((leClasses (xs ++ ys)).indexOf "nan" : ℚ)) ∧
      naCount (encodeCol (leClasses (xs ++ ys)) xs) = 0 ∧
      naCount (encodeCol (leClasses (xs ++ ys)) ys) = 0 ∧
      (∀ (tr te : Frame) (c : String × Col), c ∈ tr → naCount c.2 = 0 →
        tr.names.Nodup → c ∈ (dropMissingStep tr te).1) ∧
      ∀ (tr te : Frame) (c : String × Col), c ∈ tr → naCount c.2 = 0 →
        c ∈ (imputeStep tr te).1 := by
  refine ⟨?_, ?_, naCount_encodeCol _ _, naCount_encodeCol _ _,
    dropMissing_keeps_noNa, impute_keeps_noNa⟩
  · unfold leClasses
    rw [mem_sortStrs, List.mem_dedup]
    have : Val.toStr Val.na = "nan" := rfl
    exact this ▸ List.mem_map_of_mem _ (List.mem_append_left ys hna)
  · intro v _ hv
    cases v with
    | na => rfl
    | inf b => simp [Val.isNa] at hv
    | num q => simp [Val.isNa] at hv
    | str s => simp [Val.isNa] at hv

/-- Witness for C9: the statement at a categorical training column
`[str "M", na]` against test column `[str "F"]`. -/
theorem C9_witness :
    "nan" ∈ leClasses ([Val.str "M", Val.na] ++ [Val.str "F"]) ∧
      naCount (encodeCol (leClasses ([Val.str "M", Val.na] ++
        [Val.str "F"])) [Val.str "M", Val.na]) = 0 := by
  have h := C9_nan_category [("G", [Val.str "M", Val.na])]
      [("G", [Val.str "F"])] "G" [Val.str "M", Val.na] [Val.str "F"]
      (by decide) (by decide) (by decide) (by decide)
  exact ⟨h.1, h.2.2.1⟩

end Loan

namespace Loan

theorem dropMissing_drops_high (train test : Frame) (c : String × Col)
    (hc : c ∈ train)
    (hgt : missingPct train.nRows c.2 > Config.MISSING_THRESHOLD * 100) :
    c.1 ∉ Frame.names (dropMissingStep train test).1 ∧
      c.1 ∉ Frame.names (dropMissingStep train test).2 := by
  have hhigh : c.1 ∈ (train.filter (fun c =>
      missingPct train.nRows c.2 > Config.MISSING_THRESHOLD * 100)).map (·.1) :=
    List.mem_map_of_mem _ (List.mem_filter.mpr ⟨hc, by simpa using hgt⟩)
  constructor
  · intro hmem
    obtain ⟨c'', hc'', he⟩ := List.mem_map.mp hmem
    have := (List.mem_filter.mp hc'').2
    rw [he] at this
    exact (of_decide_eq_true this) hhigh
  · intro hmem
    obtain ⟨c'', hc'', he⟩ := List.mem_map.mp hmem
    have := (List.mem_filter.mp hc'').2
    rw [he] at this
    exact (of_decide_eq_true this) hhigh

theorem dropMissing_keeps_le (train test : Frame) (c : String × Col)
    (hc : c ∈ train) (hnd : train.names.Nodup)
    (hle : ¬ missingPct train.nRows c.2 > Config.MISSING_THRESHOLD * 100) :
    c ∈ (dropMissingStep train test).1 ∧
      ∀ d ∈ test, d.1 = c.1 → d ∈ (dropMissingStep train test).2 := by
  have hnot : c.1 ∉ (train.filter (fun c =>
      missingPct train.nRows c.2 > Config.MISSING_THRESHOLD * 100)).map (·.1) := by
    intro hhigh
    obtain ⟨c', hc', he⟩ := List.mem_map.mp hhigh
    have hc'tr := List.mem_filter.mp hc'
    have : c' = c := mem_eq_of_names_nodup hnd hc'tr.1 hc he
    rw [this] at hc'tr
    exact hle (of_decide_eq_true hc'tr.2)
  constructor
  · exact List.mem_filter.mpr ⟨hc, by simpa using hnot⟩
  · intro d hd hdc
    refine List.mem_filter.mpr ⟨hd, ?_⟩
    rw [hdc]
    simpa using hnot

theorem impute_fills_train (tr te : Frame) (c : String × Col)
    (hc : c ∈ tr) (hpos : naCount c.2 > 0) :
    (c.1, fillNa (medianVal c.2) c.2) ∈ (imputeStep tr te).1 ∧
      ∀ i : Nat, (fillNa (medianVal c.2) c.2)[i]? =
        (c.2[i]?).map (fun x => if x.isNa then medianVal c.2 else x) := by
  constructor
  · unfold imputeStep
    have he : (fun c : String × Col =>
        if naCount c.2 > 0 then (c.1, fillNa (medianVal c.2) c.2) else c) c =
        (c.1, fillNa (medianVal c.2) c.2) := by
      simp [hpos]
    exact he ▸ List.mem_map_of_mem _ hc
  · intro i
    simp [fillNa, List.getElem?_map]

theorem impute_fills_test (tr te : Frame) (d : String × Col) (xs : Col)
    (hd : d ∈ te) (hcol : tr.col? d.1 = some xs) (hpos : naCount xs > 0) :
    (d.1, fillNa (medianVal xs) d.2) ∈ (imputeStep tr te).2 := by
  unfold imputeStep
  have he : (fun c : String × Col =>
      match tr.col? c.1 with
      | some xs =>
          if naCount xs > 0 then (c.1, fillNa (medianVal xs) c.2) else c
      | none => c) d = (d.1, fillNa (medianVal xs) d.2) := by
    simp only [hcol]
    simp [hpos]
  exact he ▸ List.mem_map_of_mem _ hd

/-- C5: the missing-value filter of `preprocess_data` computes each
column's missing fraction on the training frame only; every column above
the 0.7 threshold is dropped from both frames, every column at or below
it is retained, and a retained training column with missing cells is
filled — in both splits — with that column's training median.  On the
concrete 20-row scenario `trMiss`/`teMiss`, column "A" (75% missing) is
dropped from both outputs and column "B" (65% missing) is kept and its
missing cells in both splits become the training median 40. -/
theorem C5_missing_filter (train test : Frame) (hnd : train.names.Nodup) :
    (∀ c ∈ train,
      missingPct train.nRows c.2 > Config.MISSING_THRESHOLD * 100 →
        c.1 ∉ Frame.names (dropMissingStep train test).1 ∧
          c.1 ∉ Frame.names (dropMissingStep train test).2) ∧
      (∀ c ∈ train,
        ¬ missingPct train.nRows c.2 > Config.MISSING_THRESHOLD * 100 →
          c ∈ (dropMissingStep train test).1 ∧
            ∀ d ∈ test, d.1 = c.1 → d ∈ (dropMissingStep train test).2) ∧
      (∀ (tr te : Frame) (c : String × Col), c ∈ tr → naCount c.2 > 0 →
        (c.1, fillNa (medianVal c.2) c.2) ∈ (imputeStep tr te).1 ∧
          (∀ i : Nat, (fillNa (medianVal c.2) c.2)[i]? =
            (c.2[i]?).map
              (fun x => if x.isNa then medianVal c.2 else x)) ∧
          ∀ d ∈ te, tr.col? d.1 = some c.2 →
            (d.1, fillNa (medianVal c.2) d.2) ∈ (imputeStep tr te).2) ∧
      (preprocess_data trMiss teMiss).map (fun r =>
        (Frame.names r.1, Frame.names r.2.1, Frame.col? r.1 "B",
          Frame.col? r.2.1 "B")) =
        some (["B"], ["B"],
          some (List.replicate 13 (Val.num 40) ++
            [Val.num 10, Val.num 20, Val.num 30, Val.num 40, Val.num 50,
             Val.num 60, Val.num 70]),
          some [Val.num 40, Val.num 25]) := by
  refine ⟨?_, ?_, ?_, ?_⟩
  · intro c hc hgt
    exact dropMissing_drops_high train test c hc hgt
  · intro c hc hle
    exact dropMissing_keeps_le train test c hc hnd hle
  · intro tr te c hc hpos
    exact ⟨(impute_fills_train tr te c hc hpos).1,
      (impute_fills_train tr te c hc hpos).2,
      fun d hd hcol => impute_fills_test tr te d c.2 hd hcol hpos⟩
  · with_unfolding_all decide

/-- Witness for C5: the statement applied to the scenario frames, with
the nodup-names hypothesis discharged concretely. -/
theorem C5_witness :
    (Frame.names trMiss).Nodup ∧
      (preprocess_data trMiss teMiss).map (fun r =>
        (Frame.names r.1, Frame.names r.2.1, Frame.col? r.1 "B",
          Frame.col? r.2.1 "B")) =
        some (["B"], ["B"],
          some (List.replicate 13 (Val.num 40) ++
            [Val.num 10, Val.num 20, Val.num 30, Val.num 40, Val.num 50,
             Val.num 60, Val.num 70]),
          some [Val.num 40, Val.num 25]) :=
  ⟨by decide, (C5_missing_filter trMiss teMiss (by decide)).2.2.2⟩

end Loan

namespace Loan

theorem find?_names_ne {t : Row} {c : String} (h : ∀ p ∈ t, p.1 ≠ c) :
    t.find? (·.1 = c) = none :=
  List.find?_eq_none.mpr (fun p hp => by simpa using h p hp)

theorem getV_append_left {r t : Row} {c : String}
    (h : (r.find? (·.1 = c)).isSome) :
    Row.getV (r ++ t) c = Row.getV r c := by
  unfold Row.getV
  rw [List.find?_append]
  obtain ⟨p, hp⟩ := Option.isSome_iff_exists.mp h
  rw [hp]
  rfl

theorem getV_append_names {r t : Row} {c : String}
    (h : ∀ p ∈ t, p.1 ≠ c) :
    Row.getV (r ++ t) c = Row.getV r c := by
  unfold Row.getV
  rw [List.find?_append, find?_names_ne h]
  cases r.find? (·.1 = c) <;> rfl

theorem find?_naCols {cols : List String} {c : String} (h : c ∈ cols) :
    (cols.map (fun c => (c, Val.na))).find? (·.1 = c) = some (c, Val.na) := by
  induction cols with
  | nil => cases h
  | cons a rest ih =>
      by_cases ha : a = c
      · subst ha
        simp [List.find?_cons]
      · cases h with
        | head => exact absurd rfl ha
        | tail _ hm =>
            rw [List.map_cons, List.find?_cons_of_neg _ (by simpa using ha)]
            exact ih hm

theorem getV_naCols {cols : List String} {c : String} (h : c ∈ cols) :
    Row.getV (cols.map (fun c => (c, Val.na))) c = Val.na := by
  unfold Row.getV
  rw [find?_naCols h]
  rfl

theorem mergeLeft_getElem? (rows : List Row) (key : String)
    (agg : List (Val × Row)) (cols : List String) (i : Nat) :
    (mergeLeft rows key agg cols)[i]? =
      (rows[i]?).map (fun r => r ++ mlExtra key agg cols r) := by
  simp [mergeLeft, List.getElem?_map]

theorem mergeLeft_length (rows : List Row) (key : String)
    (agg : List (Val × Row)) (cols : List String) :
    (mergeLeft rows key agg cols).length = rows.length := by
  simp [mergeLeft]

theorem mlExtra_none {key : String} {agg : List (Val × Row)}
    {cols : List String} {r : Row}
    (h : ∀ e ∈ agg, e.1 ≠ r.getV key) :
    mlExtra key agg cols r = cols.map (fun c => (c, Val.na)) := by
  unfold mlExtra
  rw [List.find?_eq_none.mpr (fun e he => by simpa using h e he)]

theorem mlExtra_mem_or {key : String} {agg : List (Val × Row)}
    {cols : List String} {r : Row} :
    (∃ e ∈ agg, mlExtra key agg cols r = e.2) ∨
      mlExtra key agg cols r = cols.map (fun c => (c, Val.na)) := by
  unfold mlExtra
  cases hf : agg.find? (fun e => e.1 = r.getV key) with
  | none => exact Or.inr rfl
  | some e => exact Or.inl ⟨e, List.mem_of_find?_eq_some hf, rfl⟩

theorem groupbyAgg_row_names {rows : List Row} {key : String}
    {spec : AggSpec} {e : Val × Row} (h : e ∈ groupbyAgg rows key spec) :
    e.2.map (·.1) = specNames spec := by
  simp only [groupbyAgg, List.mem_map] at h
  obtain ⟨k, _, rfl⟩ := h
  simp [specNames, List.map_map]

theorem groupbyAgg_keys_sub {rows : List Row} {key : String}
    {spec : AggSpec} {e : Val × Row} (h : e ∈ groupbyAgg rows key spec) :
    e.1 ∈ rows.map (fun r => r.getV key) := by
  simp only [groupbyAgg, List.mem_map] at h
  obtain ⟨k, hk, rfl⟩ := h
  exact (List.filter_sublist _).subset (List.dedup_subset _ hk)

theorem mergeTables_mem {a b : List (Val × Row)} {bCols : List String}
    {e : Val × Row} (h : e ∈ mergeTables a b bCols) :
    ∃ e0 ∈ a, e.1 = e0.1 ∧
      (e.2 = e0.2 ++ bCols.map (fun c => (c, Val.na)) ∨
        ∃ e2 ∈ b, e.2 = e0.2 ++ e2.2) := by
  simp only [mergeTables, List.mem_map] at h
  obtain ⟨e0, he0, rfl⟩ := h
  refine ⟨e0, he0, ?_⟩
  cases hf : b.find? (fun e2 => e2.1 = e0.1) with
  | none => simp [hf]
  | some e2 =>
      simp only [hf]
      exact ⟨by simp, Or.inr ⟨e2, List.mem_of_find?_eq_some hf, by simp⟩⟩

end Loan

namespace Loan

theorem getV_append_right_of_none {r t : Row} {c : String}
    (h : r.find? (·.1 = c) = none) :
    Row.getV (r ++ t) c = Row.getV t c := by
  unfold Row.getV
  rw [List.find?_append, h]
  rfl

theorem find?_append_isSome {r t : Row} {p : String × Val → Bool}
    (h : (r.find? p).isSome) : ((r ++ t).find? p).isSome = true := by
  rw [List.find?_append]
  obtain ⟨q, hq⟩ := Option.isSome_iff_exists.mp h
  rw [hq]
  rfl

theorem mlExtra_names {key : String} {agg : List (Val × Row)}
    {cols : List String} {r : Row}
    (hagg : ∀ e ∈ agg, e.2.map (·.1) = cols) :
    (mlExtra key agg cols r).map (·.1) = cols := by
  unfold mlExtra
  cases hf : agg.find? (fun e => e.1 = r.getV key) with
  | none =>
      have hcomp : ((fun x : String × Val => x.1) ∘ fun c => (c, Val.na)) =
          fun c : String => c := rfl
      rw [List.map_map, hcomp, List.map_id']
  | some e => exact hagg e (List.mem_of_find?_eq_some hf)

theorem getV_append_of_names_eq {r t : Row} {c : String}
    {cols : List String} (hn : t.map (·.1) = cols) (hc : c ∉ cols) :
    Row.getV (r ++ t) c = Row.getV r c := by
  refine getV_append_names ?_
  intro p hp hpc
  exact hc (hn ▸ hpc ▸ List.mem_map_of_mem (·.1) hp)

theorem engineerRow_getV_key (sqrtF : ℚ → ℚ) (r : Row) :
    (engineerRow sqrtF r).getV "SK_ID_CURR" = r.getV "SK_ID_CURR" := by
  simp only [engineerRow]
  repeat rw [getV_setV_ne _ _ (by decide)]

theorem map_fst_naCols (cols : List String) :
    (cols.map (fun c => (c, Val.na))).map (·.1) = cols := by
  have hcomp : ((fun x : String × Val => x.1) ∘ fun c => (c, Val.na)) =
      fun c : String => c := rfl
  rw [List.map_map, hcomp, List.map_id']

theorem bureau_table_row_names {bureau bb : List Row} {e : Val × Row}
    (h : e ∈ aggregate_bureau_features bureau bb) :
    e.2.map (·.1) = bureauAllCols := by
  unfold aggregate_bureau_features at h
  obtain ⟨e0, he0, _, hcase⟩ := mergeTables_mem h
  obtain ⟨e00, he00, _, hcase0⟩ := mergeTables_mem he0
  have hmain := groupbyAgg_row_names he00
  have h0 : e0.2.map (·.1) =
      specNames bureauSpec ++ specNames bureauActiveSpec := by
    rcases hcase0 with hna | ⟨e2, he2, heq⟩
    · rw [hna, List.map_append, map_fst_naCols, hmain]
    · rw [heq, List.map_append, hmain, groupbyAgg_row_names he2]
  have : e.2.map (·.1) =
      (specNames bureauSpec ++ specNames bureauActiveSpec) ++
        specNames bureauClosedSpec := by
    rcases hcase with hna | ⟨e2, he2, heq⟩
    · rw [hna, List.map_append, map_fst_naCols, h0]
    · rw [heq, List.map_append, h0, groupbyAgg_row_names he2]
  rw [this, bureauAllCols, List.append_assoc]

theorem bureau_table_keys {bureau bb : List Row} {e : Val × Row}
    (h : e ∈ aggregate_bureau_features bureau bb) :
    e.1 ∈ bureau.map (fun r => r.getV "SK_ID_CURR") := by
  unfold aggregate_bureau_features at h
  obtain ⟨e0, he0, hk0, _⟩ := mergeTables_mem h
  obtain ⟨e00, he00, hk00, _⟩ := mergeTables_mem he0
  have hmem := groupbyAgg_keys_sub he00
  rw [hk0, hk00]
  obtain ⟨r2, hr2, hval⟩ := List.mem_map.mp hmem
  simp only [mergeLeft, List.mem_map] at hr2
  obtain ⟨rb, hrb, heq⟩ := hr2
  have hnames : (mlExtra "SK_ID_BUREAU"
      (groupbyAgg bb "SK_ID_BUREAU" bbSpec) (specNames bbSpec) rb).map
        (·.1) = specNames bbSpec :=
    mlExtra_names (fun e' he' => groupbyAgg_row_names he')
  rw [← heq] at hval
  rw [← hval, getV_append_of_names_eq hnames (by decide)]
  exact List.mem_map_of_mem _ hrb

theorem prev_table_row_names {prev : List Row} {e : Val × Row}
    (h : e ∈ aggregate_previous_applications prev) :
    e.2.map (·.1) = prevAllCols := by
  unfold aggregate_previous_applications at h
  obtain ⟨e0, he0, _, hcase⟩ := mergeTables_mem h
  obtain ⟨e00, he00, _, hcase0⟩ := mergeTables_mem he0
  have hmain := groupbyAgg_row_names he00
  have h0 : e0.2.map (·.1) =
      specNames prevSpec ++ specNames prevApprovedSpec := by
    rcases hcase0 with hna | ⟨e2, he2, heq⟩
    · rw [hna, List.map_append, map_fst_naCols, hmain]
    · rw [heq, List.map_append, hmain, groupbyAgg_row_names he2]
  have : e.2.map (·.1) =
      (specNames prevSpec ++ specNames prevApprovedSpec) ++
        specNames prevRefusedSpec := by
    rcases hcase with hna | ⟨e2, he2, heq⟩
    · rw [hna, List.map_append, map_fst_naCols, h0]
    · rw [heq, List.map_append, h0, groupbyAgg_row_names he2]
  rw [this, prevAllCols, List.append_assoc]

theorem prev_table_keys {prev : List Row} {e : Val × Row}
    (h : e ∈ aggregate_previous_applications prev) :
    e.1 ∈ prev.map (fun r => r.getV "SK_ID_CURR") := by
  unfold aggregate_previous_applications at h
  obtain ⟨e0, he0, hk0, _⟩ := mergeTables_mem h
  obtain ⟨e00, he00, hk00, _⟩ := mergeTables_mem he0
  rw [hk0, hk00]
  exact groupbyAgg_keys_sub he00

theorem inst_table_keys {inst : List Row} {e : Val × Row}
    (h : e ∈ (aggregate_installments inst).1) :
    e.1 ∈ inst.map (fun r => r.getV "SK_ID_CURR") := by
  have hmem := groupbyAgg_keys_sub h
  obtain ⟨r2, hr2, hval⟩ := List.mem_map.mp hmem
  obtain ⟨r0, hr0, heq⟩ := List.mem_map.mp hr2
  rw [← hval, ← heq,
    (instDerivedRow_getV r0).2.2.2 "SK_ID_CURR" (by decide) (by decide)
      (by decide)]
  exact List.mem_map_of_mem _ hr0

end Loan

namespace Loan

theorem names_ne_of_map_eq {t : Row} {cols : List String} {c : String}
    (hn : t.map (·.1) = cols) (hc : c ∉ cols) : ∀ p ∈ t, p.1 ≠ c :=
  fun p hp hpc => hc (hn ▸ hpc ▸ List.mem_map_of_mem (·.1) hp)

/-- C7: every merge of an aggregated ledger table onto the applicant
frame is a left join — the merged frame has exactly one row per
applicant row, every engineered applicant field keeps its value, and an
applicant with no rows in the bureau, previous-application or
installments ledger reads NaN in every column derived from that ledger
instead of losing its row. -/
theorem C7_left_join_merges (sqrtF : ℚ → ℚ)
    (app bureau bb prev inst : List Row) :
    (mergeLedgerFeatures sqrtF app bureau bb prev inst).length =
        app.length ∧
      ∀ (i : Nat) (r' : Row),
        (mergeLedgerFeatures sqrtF app bureau bb prev inst)[i]? =
          some r' →
        ∃ r : Row, app[i]? = some r ∧
          (∀ c : String, ((engineerRow sqrtF r).find? (·.1 = c)).isSome →
            r'.getV c = (engineerRow sqrtF r).getV c) ∧
          (r.getV "SK_ID_CURR" ∉
              bureau.map (fun rb => rb.getV "SK_ID_CURR") →
            ∀ c ∈ bureauAllCols,
              (engineerRow sqrtF r).find? (·.1 = c) = none →
                r'.getV c = Val.na) ∧
          (r.getV "SK_ID_CURR" ∉
              prev.map (fun rp => rp.getV "SK_ID_CURR") →
            ∀ c ∈ prevAllCols,
              (engineerRow sqrtF r).find? (·.1 = c) = none →
                r'.getV c = Val.na) ∧
          (r.getV "SK_ID_CURR" ∉
              inst.map (fun ri => ri.getV "SK_ID_CURR") →
            ∀ c ∈ specNames instAggSpec,
              (engineerRow sqrtF r).find? (·.1 = c) = none →
                r'.getV c = Val.na) := by
  simp only [mergeLedgerFeatures, engineer_application_features]
  constructor
  · rw [mergeLeft_length, mergeLeft_length, mergeLeft_length,
      List.length_map]
  · intro i r' hr'
    rw [mergeLeft_getElem?, mergeLeft_getElem?, mergeLeft_getElem?,
      List.getElem?_map] at hr'
    cases happ : app[i]? with
    | none => rw [happ] at hr'; simp at hr'
    | some r =>
        rw [happ] at hr'
        simp only [Option.map_some'] at hr'
        have hr2 : r' = ((engineerRow sqrtF r ++
            mlExtra "SK_ID_CURR" (aggregate_bureau_features bureau bb)
              bureauAllCols (engineerRow sqrtF r)) ++
            mlExtra "SK_ID_CURR" (aggregate_previous_applications prev)
              prevAllCols (engineerRow sqrtF r ++
                mlExtra "SK_ID_CURR" (aggregate_bureau_features bureau bb)
                  bureauAllCols (engineerRow sqrtF r))) ++
            mlExtra "SK_ID_CURR" (aggregate_installments inst).1
              (specNames instAggSpec) ((engineerRow sqrtF r ++
                mlExtra "SK_ID_CURR" (aggregate_bureau_features bureau bb)
                  bureauAllCols (engineerRow sqrtF r)) ++
                mlExtra "SK_ID_CURR"
                  (aggregate_previous_applications prev) prevAllCols
                  (engineerRow sqrtF r ++
                    mlExtra "SK_ID_CURR"
                      (aggregate_bureau_features bureau bb) bureauAllCols
                      (engineerRow sqrtF r))) :=
          (Option.some.inj hr').symm
        set er := engineerRow sqrtF r with her
        set e1 := mlExtra "SK_ID_CURR"
          (aggregate_bureau_features bureau bb) bureauAllCols er with he1d
        set e2 := mlExtra "SK_ID_CURR"
          (aggregate_previous_applications prev) prevAllCols (er ++ e1)
          with he2d
        set e3 := mlExtra "SK_ID_CURR" (aggregate_installments inst).1
          (specNames instAggSpec) ((er ++ e1) ++ e2) with he3d
        have he1n : e1.map (·.1) = bureauAllCols :=
          mlExtra_names (fun e he => bureau_table_row_names he)
        have he2n : e2.map (·.1) = prevAllCols :=
          mlExtra_names (fun e he => prev_table_row_names he)
        have hkey0 : er.getV "SK_ID_CURR" = r.getV "SK_ID_CURR" :=
          engineerRow_getV_key sqrtF r
        have hkey1 : Row.getV (er ++ e1) "SK_ID_CURR" =
            r.getV "SK_ID_CURR" := by
          rw [getV_append_of_names_eq he1n (by decide), hkey0]
        have hkey2 : Row.getV ((er ++ e1) ++ e2) "SK_ID_CURR" =
            r.getV "SK_ID_CURR" := by
          rw [getV_append_of_names_eq he2n (by decide), hkey1]
        refine ⟨r, rfl, ?_, ?_, ?_, ?_⟩
        · intro c hc
          rw [hr2,
            getV_append_left (find?_append_isSome (find?_append_isSome hc)),
            getV_append_left (find?_append_isSome hc),
            getV_append_left hc]
        · intro hid c hcB hcnone
          have he1 : e1 = bureauAllCols.map (fun c => (c, Val.na)) := by
            rw [he1d]
            exact mlExtra_none (fun e he heq =>
              hid (hkey0 ▸ heq ▸ bureau_table_keys he))
          have hsome1 : ((er ++ e1).find? (·.1 = c)).isSome = true := by
            rw [List.find?_append, hcnone, he1, find?_naCols hcB]
            rfl
          rw [hr2, getV_append_left (find?_append_isSome hsome1),
            getV_append_left hsome1, getV_append_right_of_none hcnone,
            he1, getV_naCols hcB]
        · intro hid c hcP hcnone
          have he2 : e2 = prevAllCols.map (fun c => (c, Val.na)) := by
            rw [he2d]
            exact mlExtra_none (fun e he heq =>
              hid (hkey1 ▸ heq ▸ prev_table_keys he))
          have hd1 : ∀ c ∈ prevAllCols, c ∉ bureauAllCols := by decide
          have hX1none : (er ++ e1).find? (·.1 = c) = none := by
            rw [List.find?_append, hcnone,
              find?_names_ne (names_ne_of_map_eq he1n (hd1 c hcP))]
            rfl
          have hsome2 : (((er ++ e1) ++ e2).find? (·.1 = c)).isSome =
              true := by
            rw [List.find?_append, hX1none, he2, find?_naCols hcP]
            rfl
          rw [hr2, getV_append_left hsome2,
            getV_append_right_of_none hX1none, he2, getV_naCols hcP]
        · intro hid c hcI hcnone
          have he3 : e3 = (specNames instAggSpec).map
              (fun c => (c, Val.na)) := by
            rw [he3d]
            exact mlExtra_none (fun e he heq =>
              hid (hkey2 ▸ heq ▸ inst_table_keys he))
          have hd2 : ∀ c ∈ specNames instAggSpec, c ∉ bureauAllCols := by
            decide
          have hd3 : ∀ c ∈ specNames instAggSpec, c ∉ prevAllCols := by
            decide
          have hX1none : (er ++ e1).find? (·.1 = c) = none := by
            rw [List.find?_append, hcnone,
              find?_names_ne (names_ne_of_map_eq he1n (hd2 c hcI))]
            rfl
          have hX2none : ((er ++ e1) ++ e2).find? (·.1 = c) = none := by
            rw [List.find?_append, hX1none,
              find?_names_ne (names_ne_of_map_eq he2n (hd3 c hcI))]
            rfl
          rw [hr2, getV_append_right_of_none hX2none, he3,
            getV_naCols hcI]

end Loan

namespace Loan

/-- Witness for C7: one applicant, all three ledgers empty — the merged
frame still has the one applicant row, and a bureau-derived column reads
NaN. -/
theorem C7_witness :
    (mergeLedgerFeatures id [[("SK_ID_CURR", Val.num 1)]]
        [] [] [] []).length = 1 ∧
      Row.getV (((mergeLedgerFeatures id [[("SK_ID_CURR", Val.num 1)]]
        [] [] [] [])[0]?).getD []) "BUREAU_ACTIVE_DEBT" = Val.na := by
  have h := C7_left_join_merges id [[("SK_ID_CURR", Val.num 1)]] [] [] [] []
  refine ⟨h.1, ?_⟩
  obtain ⟨r, hr, hpres, hB, hP, hI⟩ := h.2 0
    (((mergeLedgerFeatures id [[("SK_ID_CURR", Val.num 1)]]
      [] [] [] [])[0]?).getD []) (by with_unfolding_all decide)
  have hreq : r = [("SK_ID_CURR", Val.num 1)] := by
    simpa using hr.symm
  subst hreq
  exact hB (by decide) "BUREAU_ACTIVE_DEBT" (by decide)
    (by with_unfolding_all decide)

end Loan

namespace Loan

theorem isNum_exists {v : Val} (h : v.isNum = true) : ∃ q, v = .num q := by
  cases v <;> simp [Val.isNum] at h ⊢

theorem maxVal_cons_cons (a b : Val) (l : List Val) :
    maxVal (a :: b :: l) =
      if valGtB (maxVal (b :: l)) a then maxVal (b :: l) else a := rfl

theorem argmaxVal_cons_cons (a b : Val) (l : List Val) :
    argmaxVal (a :: b :: l) =
      if valGtB (maxVal (b :: l)) a then argmaxVal (b :: l) + 1 else 0 := rfl

theorem maxVal_mem : ∀ {l : List Val}, l ≠ [] → maxVal l ∈ l := by
  intro l
  induction l with
  | nil => intro h; exact absurd rfl h
  | cons a rest ih =>
      intro _
      cases rest with
      | nil => exact List.mem_singleton.mpr rfl
      | cons b l2 =>
          rw [maxVal_cons_cons]
          split
          · exact List.mem_cons_of_mem a (ih (by simp))
          · exact List.mem_cons_self a _

theorem argmax_spec :
    ∀ (l : List Val), (∀ v ∈ l, v.isNum = true) → l ≠ [] →
      l[argmaxVal l]? = some (maxVal l) ∧
        (∀ v ∈ l, valGtB v (maxVal l) = false) ∧
        ∀ k, k < argmaxVal l → ∀ v, l[k]? = some v →
          valGtB (maxVal l) v = true := by
  intro l
  induction l with
  | nil => intro _ h; exact absurd rfl h
  | cons a rest ih =>
      intro hnum _
      obtain ⟨qa, hqa⟩ := isNum_exists (hnum a (List.mem_cons_self a rest))
      cases rest with
      | nil =>
          refine ⟨rfl, ?_, ?_⟩
          · intro v hv
            rw [List.mem_singleton.mp hv]
            subst hqa
            show decide (qa < qa) = false
            exact decide_eq_false (lt_irrefl qa)
          · intro k hk
            simp [argmaxVal] at hk
      | cons b l2 =>
          have hnum2 : ∀ v ∈ b :: l2, v.isNum = true :=
            fun v hv => hnum v (List.mem_cons_of_mem a hv)
          obtain ⟨ihg, ihle, ihlt⟩ := ih hnum2 (by simp)
          obtain ⟨qm, hqm⟩ :=
            isNum_exists (hnum2 _ (maxVal_mem (by simp)))
          by_cases ht : valGtB (maxVal (b :: l2)) a = true
          · rw [maxVal_cons_cons, argmaxVal_cons_cons, if_pos ht, if_pos ht]
            have hlt : qa < qm := by
              rw [hqm, hqa] at ht
              exact of_decide_eq_true ht
            refine ⟨by rw [List.getElem?_cons_succ]; exact ihg, ?_, ?_⟩
            · intro v hv
              cases hv with
              | head =>
                  rw [hqm, hqa]
                  exact decide_eq_false (not_lt.mpr (le_of_lt hlt))
              | tail _ hm => exact ihle v hm
            · intro k hk v hv
              cases k with
              | zero =>
                  rw [List.getElem?_cons_zero] at hv
                  rw [← Option.some.inj hv]
                  exact ht
              | succ k' =>
                  rw [List.getElem?_cons_succ] at hv
                  exact ihlt k' (Nat.lt_of_succ_lt_succ hk) v hv
          · rw [maxVal_cons_cons, argmaxVal_cons_cons, if_neg ht, if_neg ht]
            have hge : qm ≤ qa := by
              rw [hqm, hqa] at ht
              exact not_lt.mp (fun hlt => ht (decide_eq_true hlt))
            refine ⟨rfl, ?_, ?_⟩
            · intro v hv
              cases hv with
              | head =>
                  rw [hqa]
                  exact decide_eq_false (lt_irrefl qa)
              | tail _ hm =>
                  obtain ⟨qv, hqv⟩ := isNum_exists (hnum2 v hm)
                  have hvle := ihle v hm
                  rw [hqv, hqm] at hvle
                  have hnl : ¬ qm < qv := by
                    simpa [valGtB] using hvle
                  rw [hqv, hqa]
                  exact decide_eq_false (not_lt.mpr (le_trans
                    (not_lt.mp hnl) hge))
            · intro k hk
              cases hk

end Loan

namespace Loan

theorem sortPairsDesc_ins_perm (a : Bool × ℚ) (l : List (Bool × ℚ)) :
    (sortPairsDesc.ins a l).Perm (a :: l) := by
  induction l with
  | nil => simp [sortPairsDesc.ins]
  | cons b rest ih =>
      simp only [sortPairsDesc.ins]
      split
      · exact List.Perm.refl _
      · exact ((ih.cons b).trans (List.Perm.swap a b rest))

theorem sortPairsDesc_perm (l : List (Bool × ℚ)) :
    (sortPairsDesc l).Perm l := by
  unfold sortPairsDesc
  induction l with
  | nil => simp [sortPairsDesc.srt]
  | cons a rest ih =>
      simp only [sortPairsDesc.srt]
      exact (sortPairsDesc_ins_perm a (sortPairsDesc.srt rest)).trans
        (ih.cons a)

theorem clfRun_single (b : Bool) (sc : ℚ) (fp tp : Nat) :
    clfRun [(b, sc)] fp tp =
      [⟨if b then fp else fp + 1, if b then tp + 1 else tp, sc⟩] := rfl

theorem clfRun_cons_cons (b : Bool) (sc : ℚ) (b2 : Bool) (sc2 : ℚ)
    (rest2 : List (Bool × ℚ)) (fp tp : Nat) :
    clfRun ((b, sc) :: (b2, sc2) :: rest2) fp tp =
      if sc2 = sc then
        clfRun ((b2, sc2) :: rest2) (if b then fp else fp + 1)
          (if b then tp + 1 else tp)
      else
        ⟨if b then fp else fp + 1, if b then tp + 1 else tp, sc⟩ ::
          clfRun ((b2, sc2) :: rest2) (if b then fp else fp + 1)
            (if b then tp + 1 else tp) := rfl

theorem clfRun_ne_nil :
    ∀ (ps : List (Bool × ℚ)), ps ≠ [] → ∀ fp tp : Nat,
      clfRun ps fp tp ≠ [] := by
  intro ps
  induction ps with
  | nil => intro h; exact absurd rfl h
  | cons p rest ih =>
      intro _ fp tp
      obtain ⟨b, sc⟩ := p
      cases rest with
      | nil => simp [clfRun]
      | cons p2 rest2 =>
          obtain ⟨b2, sc2⟩ := p2
          rw [clfRun_cons_cons]
          split
          · exact ih (by simp) _ _
          · simp

theorem getLast?_cons_of_ne_nil {l : List RocPoint} (a : RocPoint)
    (h : l ≠ []) : (a :: l).getLast? = l.getLast? := by
  cases l with
  | nil => exact absurd rfl h
  | cons b l2 => exact List.getLast?_cons_cons

theorem clfRun_getLast? :
    ∀ (ps : List (Bool × ℚ)), ps ≠ [] → ∀ fp tp : Nat,
      ∃ thr : ℚ, (clfRun ps fp tp).getLast? =
        some ⟨fp + (ps.filter (fun p => !p.1)).length,
          tp + (ps.filter (fun p => p.1)).length, thr⟩ := by
  intro ps
  induction ps with
  | nil => intro h; exact absurd rfl h
  | cons p rest ih =>
      intro _ fp tp
      obtain ⟨b, sc⟩ := p
      cases rest with
      | nil =>
          refine ⟨sc, ?_⟩
          cases b <;> simp [clfRun, List.filter]
      | cons p2 rest2 =>
          obtain ⟨b2, sc2⟩ := p2
          obtain ⟨thr, hthr⟩ := ih (by simp)
            (if b then fp else fp + 1) (if b then tp + 1 else tp)
          refine ⟨thr, ?_⟩
          rw [clfRun_cons_cons]
          have hcounts :
              (if b then fp else fp + 1) +
                  (((b2, sc2) :: rest2).filter (fun p => !p.1)).length =
                fp + (((b, sc) :: (b2, sc2) :: rest2).filter
                  (fun p => !p.1)).length ∧
              (if b then tp + 1 else tp) +
                  (((b2, sc2) :: rest2).filter (fun p => p.1)).length =
                tp + (((b, sc) :: (b2, sc2) :: rest2).filter
                  (fun p => p.1)).length := by
            cases b <;> simp [List.filter_cons] <;> omega
          split
          · rw [hthr, hcounts.1, hcounts.2]
          · rw [getLast?_cons_of_ne_nil _ (clfRun_ne_nil _ (by simp) _ _),
              hthr, hcounts.1, hcounts.2]

end Loan

namespace Loan

theorem dropIntermediate_getLast? (pts : List RocPoint) :
    (dropIntermediate pts).getLast? = pts.getLast? := by
  unfold dropIntermediate
  split
  · rfl
  · rename_i hlen
    cases pts with
    | nil => simp at hlen
    | cons p rest =>
        cases rest with
        | nil => simp at hlen
        | cons q rest2 =>
            rw [getLast?_cons_of_ne_nil _ (by simp), List.getLast?_concat,
              List.getLast?_cons_cons, List.getLastD_eq_getLast?]
            cases hgl : (q :: rest2).getLast? with
            | none =>
                have := List.getLast?_isSome (l := q :: rest2)
                rw [hgl] at this
                simp at this
            | some x => rfl

theorem zip_mem_of_mem_left {α β : Type} (a : α) :
    ∀ (l : List α) (l2 : List β), a ∈ l → l.length = l2.length →
      ∃ b, (a, b) ∈ l.zip l2 := by
  intro l
  induction l with
  | nil => intro l2 h; cases h
  | cons x xs ih =>
      intro l2 hmem hlen
      cases l2 with
      | nil => simp at hlen
      | cons b bs =>
          rcases List.mem_cons.mp hmem with rfl | hmem2
          · exact ⟨b, List.mem_cons_self _ _⟩
          · obtain ⟨b2, hb2⟩ := ih bs hmem2 (by simpa using hlen)
            exact ⟨b2, List.mem_cons_of_mem _ hb2⟩

theorem roc_totals (y : List Bool) (s : List ℚ)
    (hlen : y.length = s.length) (hpos : true ∈ y) (hneg : false ∈ y) :
    0 < ((dropIntermediate (clfRun (sortPairsDesc (y.zip s)) 0 0)).getLastD
        ⟨0, 0, 0⟩).fp ∧
      0 < ((dropIntermediate (clfRun (sortPairsDesc (y.zip s)) 0 0)).getLastD
        ⟨0, 0, 0⟩).tp := by
  have hzlen : (y.zip s).length = y.length := by
    rw [List.length_zip, hlen]
    exact min_self _
  obtain ⟨qp, hpmem⟩ := zip_mem_of_mem_left true y s hpos hlen
  obtain ⟨qn, hnmem⟩ := zip_mem_of_mem_left false y s hneg hlen
  have hperm := sortPairsDesc_perm (y.zip s)
  have hsne : sortPairsDesc (y.zip s) ≠ [] := by
    intro h
    have hl := hperm.length_eq
    rw [h] at hl
    have hy0 : 0 < y.length := List.length_pos.mpr (List.ne_nil_of_mem hpos)
    simp at hl
    omega
  obtain ⟨thr, hlast⟩ := clfRun_getLast? _ hsne 0 0
  rw [List.getLastD_eq_getLast?, dropIntermediate_getLast?, hlast]
  simp only [Option.getD_some]
  constructor
  · have hm : ((false, qn) : Bool × ℚ) ∈
        (sortPairsDesc (y.zip s)).filter (fun p => !p.1) :=
      List.mem_filter.mpr ⟨hperm.mem_iff.mpr hnmem, rfl⟩
    have := List.length_pos.mpr (List.ne_nil_of_mem hm)
    omega
  · have hm : ((true, qp) : Bool × ℚ) ∈
        (sortPairsDesc (y.zip s)).filter (fun p => p.1) :=
      List.mem_filter.mpr ⟨hperm.mem_iff.mpr hpmem, rfl⟩
    have := List.length_pos.mpr (List.ne_nil_of_mem hm)
    omega

end Loan

namespace Loan

theorem sub_isNum {a b : Val} (ha : a.isNum = true) (hb : b.isNum = true) :
    (a.sub b).isNum = true := by
  obtain ⟨qa, rfl⟩ := isNum_exists ha
  obtain ⟨qb, rfl⟩ := isNum_exists hb
  rfl

theorem roc_curve_isNum (y : List Bool) (s : List ℚ)
    (hfp : 0 < ((dropIntermediate
      (clfRun (sortPairsDesc (y.zip s)) 0 0)).getLastD ⟨0, 0, 0⟩).fp)
    (htp : 0 < ((dropIntermediate
      (clfRun (sortPairsDesc (y.zip s)) 0 0)).getLastD ⟨0, 0, 0⟩).tp) :
    (∀ a ∈ (roc_curve y s).1, a.isNum = true) ∧
      ∀ a ∈ (roc_curve y s).2.1, a.isNum = true := by
  constructor
  · intro a ha
    simp only [roc_curve] at ha
    obtain ⟨x, _, rfl⟩ := List.mem_map.mp ha
    unfold divCounts
    rw [if_neg (Nat.pos_iff_ne_zero.mp hfp)]
    rfl
  · intro a ha
    simp only [roc_curve] at ha
    obtain ⟨x, _, rfl⟩ := List.mem_map.mp ha
    unfold divCounts
    rw [if_neg (Nat.pos_iff_ne_zero.mp htp)]
    rfl

theorem roc_curve_lengths (y : List Bool) (s : List ℚ) :
    (roc_curve y s).1.length = (roc_curve y s).2.2.length ∧
      (roc_curve y s).2.1.length = (roc_curve y s).2.2.length ∧
      0 < (roc_curve y s).2.2.length := by
  simp [roc_curve]

/-- C6: `find_optimal_threshold` returns the ROC threshold at the first
index maximizing Youden's J = tpr − fpr, in the order `roc_curve` yields
thresholds (the selected index carries the maximal J score, and every
earlier index carries a strictly smaller one); on synthetic scores whose
classes separate perfectly at 0.6 (positives 0.8, 0.7 / negatives 0.4,
0.3) the selected threshold is 0.7 and the selected ROC point has
TPR = 1 and FPR = 0. -/
theorem C6_find_optimal_threshold (y : List Bool) (s : List ℚ)
    (hlen : y.length = s.length) (hpos : true ∈ y) (hneg : false ∈ y) :
    (find_optimal_threshold y s =
        ((roc_curve y s).2.2.get? (argmaxVal (jScores y s))).getD Val.na ∧
      argmaxVal (jScores y s) < (jScores y s).length ∧
      (roc_curve y s).2.2.length = (jScores y s).length ∧
      (jScores y s)[argmaxVal (jScores y s)]? = some (maxVal (jScores y s)) ∧
      (∀ v ∈ jScores y s, valGtB v (maxVal (jScores y s)) = false) ∧
      (∀ k, k < argmaxVal (jScores y s) → ∀ v,
        (jScores y s)[k]? = some v →
          valGtB (maxVal (jScores y s)) v = true)) ∧
      find_optimal_threshold [true, true, false, false]
          [4/5, 7/10, 2/5, 3/10] = Val.num (7/10) ∧
      (roc_curve [true, true, false, false]
          [4/5, 7/10, 2/5, 3/10]).2.1[argmaxVal (jScores
            [true, true, false, false] [4/5, 7/10, 2/5, 3/10])]? =
        some (Val.num 1) ∧
      (roc_curve [true, true, false, false]
          [4/5, 7/10, 2/5, 3/10]).1[argmaxVal (jScores
            [true, true, false, false] [4/5, 7/10, 2/5, 3/10])]? =
        some (Val.num 0) := by
  obtain ⟨hfp, htp⟩ := roc_totals y s hlen hpos hneg
  obtain ⟨hfn, htn⟩ := roc_curve_isNum y s hfp htp
  obtain ⟨hl1, hl2, hl3⟩ := roc_curve_lengths y s
  have hjlen : (jScores y s).length = (roc_curve y s).2.2.length := by
    rw [jScores, List.length_zipWith, hl1, hl2]
    exact min_self _
  have hjnum : ∀ v ∈ jScores y s, v.isNum = true := by
    intro v hv
    obtain ⟨k, hk⟩ := List.mem_iff_getElem?.mp hv
    rw [jScores, List.getElem?_zipWith] at hk
    cases h1 : (roc_curve y s).2.1[k]? with
    | none => rw [h1] at hk; cases hk
    | some a =>
        cases h2 : (roc_curve y s).1[k]? with
        | none => rw [h1, h2] at hk; cases hk
        | some b =>
            rw [h1, h2] at hk
            rw [← Option.some.inj hk]
            exact sub_isNum (htn a (List.mem_iff_getElem?.mpr ⟨k, h1⟩))
              (hfn b (List.mem_iff_getElem?.mpr ⟨k, h2⟩))
  have hjne : jScores y s ≠ [] := by
    intro h
    rw [h] at hjlen
    simp at hjlen
    omega
  obtain ⟨hg, hle, hlt⟩ := argmax_spec (jScores y s) hjnum hjne
  have hbound : argmaxVal (jScores y s) < (jScores y s).length := by
    by_contra hb
    rw [List.getElem?_eq_none (Nat.le_of_not_lt hb)] at hg
    cases hg
  exact ⟨⟨rfl, hbound, hjlen.symm, hg, hle, hlt⟩,
    by with_unfolding_all decide, by with_unfolding_all decide,
    by with_unfolding_all decide⟩

/-- Witness for C6: the statement applied to the synthetic
perfect-separation sample. -/
theorem C6_witness :
    find_optimal_threshold [true, true, false, false]
        [4/5, 7/10, 2/5, 3/10] = Val.num (7/10) ∧
      argmaxVal (jScores [true, true, false, false]
          [4/5, 7/10, 2/5, 3/10]) <
        (jScores [true, true, false, false] [4/5, 7/10, 2/5, 3/10]).length := by
  have h := C6_find_optimal_threshold [true, true, false, false]
      [4/5, 7/10, 2/5, 3/10] (by decide) (by decide) (by decide)
  exact ⟨h.2.1, h.1.2.1⟩

end Loan

namespace Loan

theorem div_not_isStr (a b : Val) : (Val.div a b).isStr = false := by
  cases a <;> cases b <;> simp only [Val.div] <;> (repeat' split) <;> rfl

theorem mean2_not_isStr (a b : Val) : (Val.mean2 a b).isStr = false :=
  div_not_isStr _ _

theorem mean2_num_isNum (x y : ℚ) :
    (Val.mean2 (Val.num x) (Val.num y)).isNum = true := by
  simp [Val.mean2, Val.add, Val.div, Val.isNum]

theorem medianVal_isNum {xs : Col} (hs : ∀ v ∈ xs, v.isStr = false)
    (hi : ∀ v ∈ xs, v.isInf = false) (hn : ∃ q, Val.num q ∈ xs) :
    (medianVal xs).isNum = true := by
  unfold medianVal
  have hnums : ∀ v ∈ sortVals Val.leB (xs.filter (fun v => !v.isNa)),
      v.isNum = true := by
    intro v hv
    rw [mem_sortVals] at hv
    obtain ⟨hvx, hvna⟩ := List.mem_filter.mp hv
    cases v with
    | na => simp [Val.isNa] at hvna
    | inf b => have := hi _ hvx; simp [Val.isInf] at this
    | str s => have := hs _ hvx; simp [Val.isStr] at this
    | num q => rfl
  obtain ⟨q, hq⟩ := hn
  have hnel : Val.num q ∈ sortVals Val.leB (xs.filter (fun v => !v.isNa)) := by
    rw [mem_sortVals]
    exact List.mem_filter.mpr ⟨hq, rfl⟩
  have hlen : (sortVals Val.leB (xs.filter (fun v => !v.isNa))).length ≠ 0 := by
    intro h
    rw [List.length_eq_zero] at h
    rw [h] at hnel
    cases hnel
  rw [dif_neg hlen]
  split
  · exact hnums _ (List.get_mem _ _ _)
  · obtain ⟨x, hx⟩ := isNum_exists (hnums _ (List.get_mem _ _ _))
    obtain ⟨y, hy⟩ := isNum_exists (hnums _ (List.get_mem _ _ _))
    rw [hx, hy]
    exact mean2_num_isNum x y

theorem medianVal_not_isStr {xs : Col} (hs : ∀ v ∈ xs, v.isStr = false) :
    (medianVal xs).isStr = false := by
  by_cases hl : (sortVals Val.leB (xs.filter (fun v => !v.isNa))).length = 0
  · unfold medianVal
    rw [dif_pos hl]
    rfl
  · unfold medianVal
    rw [dif_neg hl]
    split
    · exact hs _
        (List.mem_filter.mp (mem_sortVals.mp (List.get_mem _ _ _))).1
    · exact mean2_not_isStr _ _

theorem fillNa_colNum {m : Val} (hm : m.isNum = true) {xs : Col}
    (hs : ∀ v ∈ xs, v.isStr = false) (hi : ∀ v ∈ xs, v.isInf = false) :
    colNum (fillNa m xs) := by
  intro v hv
  obtain ⟨w, hw, rfl⟩ := List.mem_map.mp hv
  cases w with
  | na => simpa [Val.isNa] using hm
  | num q => rfl
  | inf b => have := hi _ hw; simp [Val.isInf] at this
  | str s => have := hs _ hw; simp [Val.isStr] at this

theorem fillNa_mem_num {m : Val} {xs : Col} {q : ℚ}
    (h : Val.num q ∈ xs) : Val.num q ∈ fillNa m xs := by
  have h2 : (if (Val.num q).isNa then m else Val.num q) = Val.num q := rfl
  exact h2 ▸ List.mem_map_of_mem (fun x => if x.isNa then m else x) h

theorem fillNa_not_isStr {m : Val} (hm : m.isStr = false) {xs : Col}
    (hs : ∀ v ∈ xs, v.isStr = false) :
    ∀ v ∈ fillNa m xs, v.isStr = false := by
  intro v hv
  obtain ⟨w, hw, rfl⟩ := List.mem_map.mp hv
  split
  · exact hm
  · exact hs _ hw

theorem fillNa_length (m : Val) (xs : Col) :
    (fillNa m xs).length = xs.length := List.length_map _ _

theorem replaceInf_not_isStr {xs : Col} (hs : ∀ v ∈ xs, v.isStr = false) :
    ∀ v ∈ replaceInf xs, v.isStr = false := by
  intro v hv
  obtain ⟨w, hw, rfl⟩ := List.mem_map.mp hv
  split
  · rfl
  · exact hs _ hw

theorem replaceInf_not_isInf (xs : Col) :
    ∀ v ∈ replaceInf xs, v.isInf = false := by
  intro v hv
  obtain ⟨w, hw, rfl⟩ := List.mem_map.mp hv
  cases w <;> simp [Val.isInf]

theorem replaceInf_mem_num {xs : Col} {q : ℚ} (h : Val.num q ∈ xs) :
    Val.num q ∈ replaceInf xs := by
  have h2 : (if (Val.num q).isInf then Val.na else Val.num q) =
      Val.num q := rfl
  exact h2 ▸ List.mem_map_of_mem (fun x => if x.isInf then Val.na else x) h

theorem replaceInf_length (xs : Col) :
    (replaceInf xs).length = xs.length := List.length_map _ _

theorem encodeCol_not_isStr (classes : List String) (xs : Col) :
    ∀ v ∈ encodeCol classes xs, v.isStr = false := by
  intro v hv
  obtain ⟨w, _, rfl⟩ := List.mem_map.mp hv
  rfl

theorem encodeCol_colNum (classes : List String) (xs : Col) :
    colNum (encodeCol classes xs) := by
  intro v hv
  obtain ⟨w, _, rfl⟩ := List.mem_map.mp hv
  rfl

theorem encodeCol_length (classes : List String) (xs : Col) :
    (encodeCol classes xs).length = xs.length := List.length_map _ _

theorem isCatCol_false_noStr {xs : Col} (h : isCatCol xs = false) :
    ∀ v ∈ xs, v.isStr = false := by
  intro v hv
  by_contra hvs
  have : xs.any (·.isStr) = true :=
    List.any_eq_true.mpr ⟨v, hv, by simpa using hvs⟩
  rw [isCatCol] at h
  rw [this] at h
  cases h

theorem naCount_eq_length_of_allNa {xs : Col} (h : ∀ v ∈ xs, v = Val.na) :
    naCount xs = xs.length := by
  unfold naCount
  rw [List.filter_eq_self.mpr (fun v hv => by rw [h v hv]; rfl)]

end Loan

namespace Loan

theorem names_map_fst {g : String × Col → String × Col}
    (hg : ∀ c, (g c).1 = c.1) (f : Frame) :
    Frame.names (f.map g) = Frame.names f := by
  unfold Frame.names
  rw [List.map_map]
  exact List.map_congr_left (fun c _ => hg c)

theorem names_filter (f : Frame) (p : String → Bool) :
    Frame.names (f.filter (fun c => p c.1)) = (Frame.names f).filter p := by
  induction f with
  | nil => rfl
  | cons c rest ih =>
      have h2 : Frame.names (c :: rest) = c.1 :: Frame.names rest := rfl
      by_cases hp : p c.1 = true
      · have hp' : (fun c : String × Col => p c.1) c = true := hp
        rw [List.filter_cons, if_pos hp']
        have h1 : Frame.names (c :: rest.filter (fun c => p c.1)) =
            c.1 :: Frame.names (rest.filter (fun c => p c.1)) := rfl
        rw [h1, h2, List.filter_cons, if_pos hp, ih]
      · have hp' : ¬ (fun c : String × Col => p c.1) c = true := hp
        rw [List.filter_cons, if_neg hp', h2, List.filter_cons,
          if_neg hp, ih]

theorem col?_isSome_iff (f : Frame) (nm : String) :
    (Frame.col? f nm).isSome = true ↔ nm ∈ Frame.names f := by
  unfold Frame.col?
  cases hf : f.find? (·.1 = nm) with
  | none =>
      simp only [hf, Option.map_none', Option.isSome_none]
      constructor
      · intro h
        cases h
      · intro h
        obtain ⟨c, hc, he⟩ := List.mem_map.mp h
        have := List.find?_eq_none.mp hf c hc
        simp [he] at this
  | some p =>
      simp only [hf, Option.map_some', Option.isSome_some]
      constructor
      · intro _
        have hp : p.1 = nm := by simpa using List.find?_some hf
        exact hp ▸ List.mem_map_of_mem (·.1) (List.mem_of_find?_eq_some hf)
      · intro _
        trivial

theorem nRows_of_wf {f : Frame} {n : Nat} (hne : f ≠ [])
    (hwf : ∀ c ∈ f, c.2.length = n) : f.nRows = n := by
  cases f with
  | nil => exact absurd rfl hne
  | cons c rest =>
      show c.2.length = n
      exact hwf c (List.mem_cons_self c rest)

theorem encodeStep_names (train test : Frame) :
    Frame.names (encodeStep train test).1 = Frame.names train ∧
      Frame.names (encodeStep train test).2 = Frame.names test := by
  constructor
  · refine names_map_fst ?_ train
    intro c
    dsimp only
    split <;> rfl
  · refine names_map_fst ?_ test
    intro c
    dsimp only
    split
    · split <;> rfl
    · rfl

theorem alignStep_names (train test : Frame) :
    Frame.names (alignStep train test).1 =
        (Frame.names train).filter (fun nm => nm ∈ Frame.names test) ∧
      Frame.names (alignStep train test).2 =
        (Frame.names train).filter (fun nm => nm ∈ Frame.names test) := by
  constructor
  · exact names_filter train (fun nm => nm ∈ Frame.names test)
  · unfold alignStep Frame.names
    rw [List.map_map]
    have hcomp : ((fun x : String × Col => x.1) ∘ fun n =>
        (n, (Frame.col? test n).getD [])) = fun n : String => n := rfl
    rw [hcomp, List.map_id']

theorem dropMissingStep_names (train test : Frame) :
    Frame.names (dropMissingStep train test).1 =
        (Frame.names train).filter (fun nm => nm ∉ (train.filter
          (fun c => missingPct train.nRows c.2 >
            Config.MISSING_THRESHOLD * 100)).map (·.1)) ∧
      Frame.names (dropMissingStep train test).2 =
        (Frame.names test).filter (fun nm => nm ∉ (train.filter
          (fun c => missingPct train.nRows c.2 >
            Config.MISSING_THRESHOLD * 100)).map (·.1)) := by
  simp only [dropMissingStep]
  constructor
  · exact names_filter train (fun nm => decide (nm ∉ (train.filter
      (fun c => missingPct train.nRows c.2 >
        Config.MISSING_THRESHOLD * 100)).map (·.1)))
  · exact names_filter test (fun nm => decide (nm ∉ (train.filter
      (fun c => missingPct train.nRows c.2 >
        Config.MISSING_THRESHOLD * 100)).map (·.1)))

theorem imputeStep_names (train test : Frame) :
    Frame.names (imputeStep train test).1 = Frame.names train ∧
      Frame.names (imputeStep train test).2 = Frame.names test := by
  constructor
  · refine names_map_fst ?_ train
    intro c
    dsimp only
    split <;> rfl
  · refine names_map_fst ?_ test
    intro c
    dsimp only
    split
    · split <;> rfl
    · rfl

theorem replaceStep_names (train test : Frame) :
    Frame.names (replaceStep train test).1 = Frame.names train ∧
      Frame.names (replaceStep train test).2 = Frame.names test := by
  unfold replaceStep
  constructor
  · refine names_map_fst ?_ train
    intro c
    rfl
  · refine names_map_fst ?_ test
    intro c
    rfl

theorem finalFillStep_names (train test : Frame) :
    Frame.names (finalFillStep train test).1 = Frame.names train ∧
      Frame.names (finalFillStep train test).2 = Frame.names test := by
  unfold finalFillStep
  constructor
  · refine names_map_fst ?_ train
    intro c
    rfl
  · refine names_map_fst ?_ test
    intro c
    dsimp only
    split <;> rfl

end Loan

namespace Loan

theorem encodeStep_train_inv (train test : Frame) (n : Nat) (hn : 0 < n)
    (hwf : ∀ c ∈ train, c.2.length = n)
    (h2 : ∀ c ∈ train, isCatCol c.2 = false →
      (∃ q, Val.num q ∈ c.2) ∨ ∀ v ∈ c.2, v = Val.na) :
    ∀ c ∈ (encodeStep train test).1,
      c.2.length = n ∧ (∀ v ∈ c.2, v.isStr = false) ∧
        ((∃ q, Val.num q ∈ c.2) ∨ ∀ v ∈ c.2, v = Val.na) := by
  intro c hc
  obtain ⟨c₀, hc₀, rfl⟩ := List.mem_map.mp hc
  by_cases hcat : isCatCol c₀.2 = true
  · rw [if_pos hcat]
    refine ⟨by rw [encodeCol_length]; exact hwf c₀ hc₀,
      encodeCol_not_isStr _ _, Or.inl ?_⟩
    have hne : encodeCol (leClasses (c₀.2 ++
        (Frame.col? test c₀.1).getD [])) c₀.2 ≠ [] := by
      intro h
      have := encodeCol_length (leClasses (c₀.2 ++
        (Frame.col? test c₀.1).getD [])) c₀.2
      rw [h, hwf c₀ hc₀] at this
      simp at this
      omega
    obtain ⟨v, hv⟩ := List.exists_mem_of_ne_nil _ hne
    obtain ⟨q, hq⟩ := isNum_exists (encodeCol_colNum _ _ v hv)
    exact ⟨q, hq ▸ hv⟩
  · rw [if_neg hcat]
    exact ⟨hwf c₀ hc₀,
      isCatCol_false_noStr (Bool.eq_false_iff.mpr hcat), h2 c₀ hc₀
        (Bool.eq_false_iff.mpr hcat)⟩

theorem encodeStep_test_cases (train test : Frame) :
    ∀ d ∈ (encodeStep train test).2, ∃ d₀ ∈ test, d.1 = d₀.1 ∧
      (((∀ xs, Frame.col? train d.1 = some xs → isCatCol xs = false) ∧
          d.2 = d₀.2) ∨
        ∃ xs, Frame.col? train d.1 = some xs ∧ isCatCol xs = true ∧
          d.2 = encodeCol (leClasses (xs ++
            (Frame.col? test d.1).getD [])) d₀.2) := by
  intro d hd
  obtain ⟨d₀, hd₀, hg⟩ := List.mem_map.mp hd
  cases hcol : Frame.col? train d₀.1 with
  | none =>
      have hde : d = d₀ := by
        rw [← hg]
        simp only [hcol]
      refine ⟨d₀, hd₀, by rw [hde],
        Or.inl ⟨fun xs hxs => ?_, by rw [hde]⟩⟩
      rw [hde, hcol] at hxs
      cases hxs
  | some xs =>
      by_cases hcat : isCatCol xs = true
      · have hde : d = (d₀.1, encodeCol (leClasses (xs ++
            (Frame.col? test d₀.1).getD [])) d₀.2) := by
          rw [← hg]
          simp only [hcol, if_pos hcat]
        refine ⟨d₀, hd₀, ?_, Or.inr ⟨xs, ?_, hcat, ?_⟩⟩
        · rw [hde]
        · rw [hde]
          exact hcol
        · rw [hde]
      · have hde : d = d₀ := by
          rw [← hg]
          simp only [hcol, if_neg hcat]
        refine ⟨d₀, hd₀, by rw [hde], Or.inl ⟨?_, by rw [hde]⟩⟩
        intro xs' hxs'
        rw [hde, hcol] at hxs'
        rw [← Option.some.inj hxs']
        exact Bool.eq_false_iff.mpr hcat

theorem alignStep_test_cols (tr te : Frame) :
    ∀ d ∈ (alignStep tr te).2, d.1 ∈ Frame.names tr ∧
      Frame.col? te d.1 = some d.2 := by
  intro d hd
  obtain ⟨nm, hnm, rfl⟩ := List.mem_map.mp hd
  obtain ⟨htr, hte⟩ := List.mem_filter.mp hnm
  have hsome : (Frame.col? te nm).isSome = true :=
    (col?_isSome_iff te nm).mpr (by simpa using hte)
  obtain ⟨ys, hys⟩ := Option.isSome_iff_exists.mp hsome
  exact ⟨htr, by simp [hys]⟩

theorem dropMissingStep_train_inv (tr te : Frame) (n : Nat) (hn : 0 < n)
    (hinv : ∀ c ∈ tr, c.2.length = n ∧ (∀ v ∈ c.2, v.isStr = false) ∧
      ((∃ q, Val.num q ∈ c.2) ∨ ∀ v ∈ c.2, v = Val.na)) :
    ∀ c ∈ (dropMissingStep tr te).1,
      c.2.length = n ∧ (∀ v ∈ c.2, v.isStr = false) ∧
        ∃ q, Val.num q ∈ c.2 := by
  intro c hc
  simp only [dropMissingStep] at hc
  obtain ⟨hctr, hkeep⟩ := List.mem_filter.mp hc
  obtain ⟨hlen, hstr, hdich⟩ := hinv c hctr
  refine ⟨hlen, hstr, ?_⟩
  cases hdich with
  | inl h => exact h
  | inr hna =>
      exfalso
      have hrows : tr.nRows = n :=
        nRows_of_wf (List.ne_nil_of_mem hctr)
          (fun c' hc' => (hinv c' hc').1)
      have hpct : missingPct tr.nRows c.2 >
          Config.MISSING_THRESHOLD * 100 := by
        rw [hrows, missingPct, naCount_eq_length_of_allNa hna, hlen]
        rw [div_self (by exact_mod_cast Nat.pos_iff_ne_zero.mp hn)]
        norm_num [Config.MISSING_THRESHOLD]
      have hhigh : c.1 ∈ (tr.filter (fun c =>
          missingPct tr.nRows c.2 > Config.MISSING_THRESHOLD * 100)).map
            (·.1) :=
        List.mem_map_of_mem _ (List.mem_filter.mpr ⟨hctr, by simpa using hpct⟩)
      exact (of_decide_eq_true hkeep) hhigh

theorem imputeStep_train_inv (tr te : Frame) (n : Nat)
    (hinv : ∀ c ∈ tr, c.2.length = n ∧ (∀ v ∈ c.2, v.isStr = false) ∧
      ∃ q, Val.num q ∈ c.2) :
    ∀ c ∈ (imputeStep tr te).1,
      c.2.length = n ∧ (∀ v ∈ c.2, v.isStr = false) ∧
        ∃ q, Val.num q ∈ c.2 := by
  intro c hc
  obtain ⟨c₀, hc₀, rfl⟩ := List.mem_map.mp hc
  obtain ⟨hlen, hstr, q, hq⟩ := hinv c₀ hc₀
  split
  · exact ⟨by rw [fillNa_length]; exact hlen,
      fillNa_not_isStr (medianVal_not_isStr hstr) hstr,
      q, fillNa_mem_num hq⟩
  · exact ⟨hlen, hstr, q, hq⟩

theorem imputeStep_test_noStr (tr te : Frame)
    (htr : ∀ c ∈ tr, ∀ v ∈ c.2, v.isStr = false)
    (hte : ∀ d ∈ te, ∀ v ∈ d.2, v.isStr = false) :
    ∀ d ∈ (imputeStep tr te).2, ∀ v ∈ d.2, v.isStr = false := by
  intro d hd
  obtain ⟨d₀, hd₀, rfl⟩ := List.mem_map.mp hd
  cases hcol : Frame.col? tr d₀.1 with
  | none =>
      simp only [hcol]
      exact hte d₀ hd₀
  | some xs =>
      simp only [hcol]
      split
      · exact fillNa_not_isStr
          (medianVal_not_isStr (htr _ (col?_some_mem hcol))) (hte d₀ hd₀)
      · exact hte d₀ hd₀

theorem replaceStep_train_inv (tr te : Frame) (n : Nat)
    (hinv : ∀ c ∈ tr, c.2.length = n ∧ (∀ v ∈ c.2, v.isStr = false) ∧
      ∃ q, Val.num q ∈ c.2) :
    ∀ c ∈ (replaceStep tr te).1,
      c.2.length = n ∧ (∀ v ∈ c.2, v.isStr = false) ∧
        (∀ v ∈ c.2, v.isInf = false) ∧ ∃ q, Val.num q ∈ c.2 := by
  intro c hc
  obtain ⟨c₀, hc₀, rfl⟩ := List.mem_map.mp hc
  obtain ⟨hlen, hstr, q, hq⟩ := hinv c₀ hc₀
  exact ⟨by rw [replaceInf_length]; exact hlen,
    replaceInf_not_isStr hstr, replaceInf_not_isInf _,
    q, replaceInf_mem_num hq⟩

theorem replaceStep_test_inv (tr te : Frame)
    (hte : ∀ d ∈ te, ∀ v ∈ d.2, v.isStr = false) :
    ∀ d ∈ (replaceStep tr te).2,
      (∀ v ∈ d.2, v.isStr = false) ∧ ∀ v ∈ d.2, v.isInf = false := by
  intro d hd
  obtain ⟨d₀, hd₀, rfl⟩ := List.mem_map.mp hd
  exact ⟨replaceInf_not_isStr (hte d₀ hd₀), replaceInf_not_isInf _⟩

theorem finalFillStep_train_num (tr te : Frame)
    (hinv : ∀ c ∈ tr, (∀ v ∈ c.2, v.isStr = false) ∧
      (∀ v ∈ c.2, v.isInf = false) ∧ ∃ q, Val.num q ∈ c.2) :
    frameNum (finalFillStep tr te).1 := by
  intro c hc
  obtain ⟨c₀, hc₀, rfl⟩ := List.mem_map.mp hc
  obtain ⟨hstr, hinf, hq⟩ := hinv c₀ hc₀
  exact fillNa_colNum (medianVal_isNum hstr hinf hq) hstr hinf

theorem finalFillStep_test_num (tr te : Frame)
    (hinv : ∀ c ∈ tr, (∀ v ∈ c.2, v.isStr = false) ∧
      (∀ v ∈ c.2, v.isInf = false) ∧ ∃ q, Val.num q ∈ c.2)
    (hte : ∀ d ∈ te, (∀ v ∈ d.2, v.isStr = false) ∧
      ∀ v ∈ d.2, v.isInf = false)
    (hnm : ∀ d ∈ te, d.1 ∈ Frame.names tr) :
    frameNum (finalFillStep tr te).2 := by
  intro d hd
  obtain ⟨d₀, hd₀, rfl⟩ := List.mem_map.mp hd
  have hsome : (Frame.col? tr d₀.1).isSome = true :=
    (col?_isSome_iff tr d₀.1).mpr (hnm d₀ hd₀)
  obtain ⟨xs, hxs⟩ := Option.isSome_iff_exists.mp hsome
  obtain ⟨hstr, hinf, hq⟩ := hinv _ (col?_some_mem hxs)
  simp only [hxs]
  exact fillNa_colNum (medianVal_isNum hstr hinf hq) (hte d₀ hd₀).1
    (hte d₀ hd₀).2

end Loan

namespace Loan

theorem dropCol_sub (f : Frame) (nm : String) : ∀ c ∈ f.dropCol nm, c ∈ f := by
  intro c hc
  unfold Frame.dropCol at hc
  exact List.mem_of_mem_filter hc

theorem dropCol_names (f : Frame) (c : String) :
    Frame.names (f.dropCol c) =
      (Frame.names f).filter (fun nm => decide (nm ≠ c)) := by
  unfold Frame.dropCol
  exact names_filter f (fun nm => decide (nm ≠ c))

theorem alignStep_train_sub (tr te : Frame) :
    ∀ c ∈ (alignStep tr te).1, c ∈ tr := by
  intro c hc
  simp only [alignStep] at hc
  exact List.mem_of_mem_filter hc

theorem dropMissingStep_test_sub (tr te : Frame) :
    ∀ d ∈ (dropMissingStep tr te).2, d ∈ te := by
  intro d hd
  simp only [dropMissingStep] at hd
  exact List.mem_of_mem_filter hd

/-- A training feature column holding only an infinity defeats the
cleaning pipeline: infinity replacement turns it into all-NaN, its
median is then NaN, and the final fill leaves the NaN in the returned
training frame, so the output is not fully numeric. -/
theorem C1_counterexample :
    preprocess_data trInf teInf =
      some ([("A", [Val.na])], [("A", [Val.num 5])],
        [Val.num 0], [Val.num 1], [Val.num 2]) ∧
      ¬ frameNum [(("A" : String), [Val.na])] := by
  refine ⟨by with_unfolding_all rfl, fun h => ?_⟩
  have h2 := h ("A", [Val.na]) (List.mem_singleton.mpr rfl) Val.na
    (List.mem_singleton.mpr rfl)
  cases h2


/-- C1 (amended): `preprocess_data` succeeds and returns train and test
feature frames with identical column names in identical order and with
every cell a finite number, provided the inputs are well-formed: the
training frame has uniform positive height, the target and `SK_ID_CURR`
columns exist, every categorical training column can be read from the
test frame, every non-categorical training column holds at least one
finite number or is entirely missing (ruling out the all-infinity
failure of `C1_counterexample`), and test columns sharing a name with a
non-categorical training column contain no strings. -/
theorem C1_preprocess_clean (train test : Frame) (n : Nat) (hn : 0 < n)
    (hwf : ∀ c ∈ train, c.2.length = n)
    (hy : (Frame.col? train "TARGET").isSome = true)
    (hid1 : (Frame.col? (train.dropCol "TARGET") "SK_ID_CURR").isSome = true)
    (hid2 : (Frame.col? test "SK_ID_CURR").isSome = true)
    (hcat : ∀ c ∈ train.dropCol "TARGET", isCatCol c.2 = true →
      (Frame.col? test c.1).isSome = true)
    (h2 : ∀ c ∈ train, isCatCol c.2 = false →
      (∃ q, Val.num q ∈ c.2) ∨ ∀ v ∈ c.2, v = Val.na)
    (h3 : ∀ d ∈ test, ∀ c ∈ train, d.1 = c.1 → isCatCol c.2 = false →
      ∀ v ∈ d.2, v.isStr = false) :
    ∃ r : Frame × Frame × Col × Col × Col,
      preprocess_data train test = some r ∧
        Frame.names r.1 = Frame.names r.2.1 ∧
        frameNum r.1 ∧ frameNum r.2.1 := by
  obtain ⟨y, hyv⟩ := Option.isSome_iff_exists.mp hy
  obtain ⟨ids1, hids1⟩ := Option.isSome_iff_exists.mp hid1
  obtain ⟨ids2, hids2⟩ := Option.isSome_iff_exists.mp hid2
  have hall : (((train.dropCol "TARGET").filter
      (fun c => isCatCol c.2)).map (·.1)).all
        (fun c => (Frame.col? test c).isSome) = true := by
    rw [List.all_eq_true]
    intro nm hnm
    obtain ⟨c, hcf, rfl⟩ := List.mem_map.mp hnm
    obtain ⟨hctr, hcc⟩ := List.mem_filter.mp hcf
    exact hcat c hctr hcc
  set tr1 := (encodeStep (train.dropCol "TARGET") test).1.dropCol
    "SK_ID_CURR" with htr1
  set te1 := (encodeStep (train.dropCol "TARGET") test).2.dropCol
    "SK_ID_CURR" with hte1
  set p3 := alignStep tr1 te1 with hp3
  set p4 := dropMissingStep p3.1 p3.2 with hp4
  set p5 := imputeStep p4.1 p4.2 with hp5
  set p6 := replaceStep p5.1 p5.2 with hp6
  set p7 := finalFillStep p6.1 p6.2 with hp7
  have hwf1 : ∀ c ∈ train.dropCol "TARGET", c.2.length = n :=
    fun c hc => hwf c (dropCol_sub train "TARGET" c hc)
  have h21 : ∀ c ∈ train.dropCol "TARGET", isCatCol c.2 = false →
      (∃ q, Val.num q ∈ c.2) ∨ ∀ v ∈ c.2, v = Val.na :=
    fun c hc => h2 c (dropCol_sub train "TARGET" c hc)
  have hinv1 := encodeStep_train_inv (train.dropCol "TARGET") test n hn hwf1 h21
  have hinv2 : ∀ c ∈ p3.1, c.2.length = n ∧ (∀ v ∈ c.2, v.isStr = false) ∧
      ((∃ q, Val.num q ∈ c.2) ∨ ∀ v ∈ c.2, v = Val.na) := by
    intro c hc
    have hc2 : c ∈ tr1 := alignStep_train_sub tr1 te1 c hc
    exact hinv1 c (dropCol_sub _ "SK_ID_CURR" c hc2)
  have hinv4 := dropMissingStep_train_inv p3.1 p3.2 n hn hinv2
  have hinv5 := imputeStep_train_inv p4.1 p4.2 n hinv4
  have hinv6 := replaceStep_train_inv p5.1 p5.2 n hinv5
  have hinvF : ∀ c ∈ p6.1, (∀ v ∈ c.2, v.isStr = false) ∧
      (∀ v ∈ c.2, v.isInf = false) ∧ ∃ q, Val.num q ∈ c.2 :=
    fun c hc => ⟨(hinv6 c hc).2.1, (hinv6 c hc).2.2.1, (hinv6 c hc).2.2.2⟩
  have hteStr3 : ∀ d ∈ p3.2, ∀ v ∈ d.2, v.isStr = false := by
    intro d hd
    obtain ⟨hdnm, hdcol⟩ := alignStep_test_cols tr1 te1 d hd
    have hdte1 : (d.1, d.2) ∈ te1 := col?_some_mem hdcol
    have hdp1 : (d.1, d.2) ∈ (encodeStep (train.dropCol "TARGET") test).2 :=
      dropCol_sub _ "SK_ID_CURR" (d.1, d.2) hdte1
    obtain ⟨d₀, hd₀, hfst, hcases⟩ :=
      encodeStep_test_cases (train.dropCol "TARGET") test (d.1, d.2) hdp1
    have hfst' : d.1 = d₀.1 := hfst
    intro v hv
    rcases hcases with ⟨hforall, heq⟩ | ⟨xs, hxs, hcat', henc⟩
    · have heq' : d.2 = d₀.2 := heq
      have hd1tr : d.1 ∈ Frame.names (train.dropCol "TARGET") := by
        rw [htr1, dropCol_names,
          (encodeStep_names (train.dropCol "TARGET") test).1] at hdnm
        exact List.mem_of_mem_filter hdnm
      have hsome : (Frame.col? (train.dropCol "TARGET") d.1).isSome = true :=
        (col?_isSome_iff _ _).mpr hd1tr
      obtain ⟨xs, hxs⟩ := Option.isSome_iff_exists.mp hsome
      have hncat : isCatCol xs = false := hforall xs hxs
      have hmemtr : (d.1, xs) ∈ train :=
        dropCol_sub train "TARGET" (d.1, xs) (col?_some_mem hxs)
      exact h3 d₀ hd₀ (d.1, xs) hmemtr hfst'.symm hncat v (heq' ▸ hv)
    · have henc' : d.2 = encodeCol (leClasses (xs ++
          (Frame.col? test (d.1, d.2).1).getD [])) d₀.2 := henc
      exact encodeCol_not_isStr _ _ v (henc' ▸ hv)
  have hteStr4 : ∀ d ∈ p4.2, ∀ v ∈ d.2, v.isStr = false :=
    fun d hd => hteStr3 d (dropMissingStep_test_sub p3.1 p3.2 d hd)
  have htr4Str : ∀ c ∈ p4.1, ∀ v ∈ c.2, v.isStr = false :=
    fun c hc => (hinv4 c hc).2.1
  have hteStr5 := imputeStep_test_noStr p4.1 p4.2 htr4Str hteStr4
  have hte6 := replaceStep_test_inv p5.1 p5.2 hteStr5
  have hnames3 : Frame.names p3.1 = Frame.names p3.2 := by
    rw [hp3, (alignStep_names tr1 te1).1, (alignStep_names tr1 te1).2]
  have hnames6 : Frame.names p6.1 = Frame.names p6.2 := by
    rw [hp6, (replaceStep_names p5.1 p5.2).1, (replaceStep_names p5.1 p5.2).2,
      hp5, (imputeStep_names p4.1 p4.2).1, (imputeStep_names p4.1 p4.2).2,
      hp4, (dropMissingStep_names p3.1 p3.2).1,
      (dropMissingStep_names p3.1 p3.2).2, hnames3]
  have hnm : ∀ d ∈ p6.2, d.1 ∈ Frame.names p6.1 := by
    intro d hd
    rw [hnames6]
    exact List.mem_map_of_mem _ hd
  refine ⟨(p7.1, p7.2, y, ids1, ids2), ?_, ?_, ?_, ?_⟩
  · show preprocess_data train test = some (p7.1, p7.2, y, ids1, ids2)
    rw [hp7, hp6, hp5, hp4, hp3, htr1, hte1]
    simp only [preprocess_data]
    rw [hyv, hids1, hids2]
    simp only [hall]
    rfl
  · show Frame.names p7.1 = Frame.names p7.2
    rw [hp7, (finalFillStep_names p6.1 p6.2).1, (finalFillStep_names p6.1 p6.2).2]
    exact hnames6
  · show frameNum p7.1
    exact finalFillStep_train_num p6.1 p6.2 hinvF
  · show frameNum p7.2
    exact finalFillStep_test_num p6.1 p6.2 hinvF hte6 hnm


/-- The cleanliness guarantee instantiated on the concrete well-behaved
pair `trClean`/`teClean`. -/
theorem C1_witness :
    ∃ r : Frame × Frame × Col × Col × Col,
      preprocess_data trClean teClean = some r ∧
        Frame.names r.1 = Frame.names r.2.1 ∧
        frameNum r.1 ∧ frameNum r.2.1 :=
  C1_preprocess_clean trClean teClean 2 (by decide) (by decide) (by decide)
    (by decide) (by decide) (by decide)
    (by
      intro c hc hcat
      simp only [trClean, List.mem_cons, List.not_mem_nil, or_false] at hc
      rcases hc with rfl | rfl | rfl
      · exact Or.inl ⟨0, by simp⟩
      · exact Or.inl ⟨1, by simp⟩
      · exact Or.inl ⟨3, by simp⟩)
    (by decide)

end Loan
